import Mathlib

/-!
Verification of the JSON formatter utility (src/script.js).

The development embeds the program's core logic over `List Char` texts:

* `Json` — the value tree produced by the host JSON parser, with numbers
  as exact decimals `m × 10^(-d)` (the host stores IEEE-754 doubles; the
  decimal abstraction keeps one canonical spelling per parser-producible
  number, which is what deep structural equality compares).
* `stringify` — the host `JSON.stringify(value, null, gap)` serializer
  (ECMA-404/262 algorithm, parameterised by the gap text).
* `parseJSON` — the host `JSON.parse` grammar as a fuelled recursive
  descent parser.
* `validateJSON`, `analyzeJSON`, `formatJSON`, `minifyJSON`,
  `compressJSON`, `loadSampleJSON` — the functions of src/script.js.
-/

namespace JsonTool

/-- JSON grammar whitespace (`ws` in ECMA-404, used by `JSON.parse`):
space, tab, line feed, carriage return. -/
def isJsonWs (c : Char) : Bool :=
  c = ' ' || c = '\t' || c = '\n' || c = '\r'

/-- ECMAScript `WhiteSpace ∪ LineTerminator`: the character class of the
regular-expression escape `\s` and of `String.prototype.trim`. -/
def isJsWs (c : Char) : Bool :=
  c = ' ' || c = '\t' || c = '\n' || c = '\r' || c.toNat = 0x0b || c.toNat = 0x0c ||
  c.toNat = 0xa0 || c.toNat = 0x1680 ||
  (0x2000 <= c.toNat && c.toNat <= 0x200a) ||
  c.toNat = 0x2028 || c.toNat = 0x2029 || c.toNat = 0x202f || c.toNat = 0x205f ||
  c.toNat = 0x3000 || c.toNat = 0xfeff

/-- Decimal digit character class. -/
def isDigitCh (c : Char) : Bool :=
  '0' ≤ c && c ≤ '9'

/-- Hexadecimal digit character class (for `\uXXXX` escapes). -/
def isHexCh (c : Char) : Bool :=
  isDigitCh c || ('a' ≤ c && c ≤ 'f') || ('A' ≤ c && c ≤ 'F')

/-- Value of a decimal digit character. -/
def digitVal (c : Char) : Nat :=
  c.toNat - 48

/-- Value of a hexadecimal digit character. -/
def hexVal (c : Char) : Nat :=
  if isDigitCh c then c.toNat - 48
  else if 'a' ≤ c && c ≤ 'f' then c.toNat - 87
  else c.toNat - 55

/-- The decimal digit character for `n < 10`. -/
def digitCh (n : Nat) : Char :=
  Char.ofNat (48 + n)

/-- Lower-case hexadecimal digit character for `n < 16`. -/
def hexCh (n : Nat) : Char :=
  if n < 10 then digitCh n else Char.ofNat (87 + n)

/-- The JSON value tree as produced by the host parser (`JSON.parse`).
A number is the exact decimal `m × 10^(-d)`; strings and keys are
Unicode character sequences; objects keep fields in their textual
order, as the host does. -/
inductive Json where
  | null : Json
  | bool (b : Bool) : Json
  | num (m : Int) (d : Nat) : Json
  | str (s : List Char) : Json
  | arr (elems : List Json) : Json
  | obj (fields : List (List Char × Json)) : Json

/-- Membership-based induction principle for the nested inductive `Json`. -/
theorem Json.recMem {P : Json → Prop}
    (hnull : P .null)
    (hbool : ∀ b, P (.bool b))
    (hnum : ∀ m d, P (.num m d))
    (hstr : ∀ s, P (.str s))
    (harr : ∀ vs, (∀ v ∈ vs, P v) → P (.arr vs))
    (hobj : ∀ fs, (∀ kv ∈ fs, P kv.2) → P (.obj fs)) :
    ∀ v, P v := by
  have H : ∀ n : Nat, ∀ v : Json, sizeOf v ≤ n → P v := by
    intro n
    induction n using Nat.strong_induction_on with
    | _ n ih =>
      intro v hv
      cases v with
      | null => exact hnull
      | bool b => exact hbool b
      | num m d => exact hnum m d
      | str s => exact hstr s
      | arr vs =>
        refine harr vs (fun v hmem => ih (sizeOf v) ?_ v (Nat.le_refl _))
        have := List.sizeOf_lt_of_mem hmem
        simp only [Json.arr.sizeOf_spec] at hv
        omega
      | obj fs =>
        refine hobj fs (fun kv hmem => ih (sizeOf kv.2) ?_ kv.2 (Nat.le_refl _))
        have h1 := List.sizeOf_lt_of_mem hmem
        have h2 : sizeOf kv.2 < sizeOf kv := by
          cases kv with
          | mk a b => simp
        simp only [Json.obj.sizeOf_spec] at hv
        omega
  exact fun v => H (sizeOf v) v (Nat.le_refl _)

/-- Decimal digits of `n`, most significant first (`"0"` for zero). -/
def natToChars (n : Nat) : List Char :=
  if n < 10 then [digitCh n]
  else natToChars (n / 10) ++ [digitCh (n % 10)]
  termination_by n
  decreasing_by exact Nat.div_lt_self (by omega) (by omega)

/-- Fold a run of decimal digit characters onto an accumulator, as the
parser's digit loop does. -/
def foldDigits (acc : Nat) (cs : List Char) : Nat :=
  cs.foldl (fun a c => 10 * a + digitVal c) acc

theorem digitVal_digitCh {n : Nat} (h : n < 10) : digitVal (digitCh n) = n := by
  interval_cases n <;> rfl

theorem isDigitCh_digitCh {n : Nat} (h : n < 10) : isDigitCh (digitCh n) = true := by
  interval_cases n <;> rfl

theorem natToChars_ne_nil (n : Nat) : natToChars n ≠ [] := by
  rw [natToChars]
  split <;> simp

theorem natToChars_digits (n : Nat) : ∀ c ∈ natToChars n, isDigitCh c = true := by
  induction n using Nat.strong_induction_on with
  | _ n ih =>
    rw [natToChars]
    split
    · next h => simpa using isDigitCh_digitCh h
    · next h =>
      intro c hc
      rcases List.mem_append.1 hc with h1 | h2
      · exact ih (n / 10) (Nat.div_lt_self (by omega) (by omega)) c h1
      · simp at h2
        subst h2
        exact isDigitCh_digitCh (Nat.mod_lt _ (by omega))

theorem foldDigits_append (acc : Nat) (xs ys : List Char) :
    foldDigits acc (xs ++ ys) = foldDigits (foldDigits acc xs) ys := by
  simp [foldDigits]

theorem foldDigits_natToChars (n acc : Nat) :
    foldDigits acc (natToChars n) = acc * 10 ^ (natToChars n).length + n := by
  induction n using Nat.strong_induction_on generalizing acc with
  | _ n ih =>
    rw [natToChars]
    split
    · next h =>
      simp [foldDigits, digitVal_digitCh h]
      ring
    · next h =>
      have hlt : n / 10 < n := Nat.div_lt_self (by omega) (by omega)
      rw [foldDigits_append, ih (n / 10) hlt acc]
      have hmod : n % 10 < 10 := Nat.mod_lt _ (by omega)
      simp [foldDigits, digitVal_digitCh hmod]
      rw [Nat.pow_succ]
      have : n = 10 * (n / 10) + n % 10 := (Nat.div_add_mod n 10).symm ▸ by omega
      ring_nf
      omega

/-- Left-pad a digit text with `'0'` to length `n`. -/
def padZeros (n : Nat) (s : List Char) : List Char :=
  List.replicate (n - s.length) '0' ++ s

/-- Canonical numeral of the exact decimal `m × 10^(-d)`: the host's
number-to-text conversion prints the integer part, then a decimal point
and the `d` fraction digits when `d > 0`. -/
def numToChars (m : Int) (d : Nat) : List Char :=
  let sign : List Char := if m < 0 then ['-'] else []
  if d = 0 then sign ++ natToChars m.natAbs
  else
    let s := padZeros (d + 1) (natToChars m.natAbs)
    sign ++ s.take (s.length - d) ++ '.' :: s.drop (s.length - d)

/-- Strip trailing factors of ten from the mantissa into the scale, as
converting a parsed numeral to the host's number value does: the host
keeps one value, hence one spelling, for `1.50` and `1.5`. -/
def normNum : Int → Nat → Int × Nat
  | m, 0 => (m, 0)
  | m, d + 1 => if m % 10 = 0 then normNum (m / 10) d else (m, d + 1)

/-- A number spelling is canonical when the scale is zero or the
mantissa does not end in a zero digit. -/
def numNormal (m : Int) (d : Nat) : Bool :=
  d = 0 || decide (m % 10 ≠ 0)

mutual

/-- Every number in the tree is in its canonical spelling: exactly the
values the host parser can produce. -/
def normalJson : Json → Bool
  | .null => true
  | .bool _ => true
  | .num m d => numNormal m d
  | .str _ => true
  | .arr vs => normalItems vs
  | .obj fs => normalFields fs

def normalItems : List Json → Bool
  | [] => true
  | v :: vs => normalJson v && normalItems vs

def normalFields : List (List Char × Json) → Bool
  | [] => true
  | kv :: fs => normalJson kv.2 && normalFields fs

end

/-- Quotation of one character inside a string literal, as ECMA-262
`QuoteJSONString` does: the named escapes, `\u00XX` for the remaining
control characters, and the character itself otherwise. -/
def quoteCh (c : Char) : List Char :=
  if c = '"' then ['\\', '"']
  else if c = '\\' then ['\\', '\\']
  else if c = '\x08' then ['\\', 'b']
  else if c = '\x0c' then ['\\', 'f']
  else if c = '\n' then ['\\', 'n']
  else if c = '\r' then ['\\', 'r']
  else if c = '\t' then ['\\', 't']
  else if c.toNat < 0x20 then ['\\', 'u', '0', '0', hexCh (c.toNat / 16), hexCh (c.toNat % 16)]
  else [c]

/-- A quoted string literal. -/
def quoteStr (s : List Char) : List Char :=
  '"' :: (s.map quoteCh).flatten ++ ['"']

/-- The serialized spellings of the three JSON literal tokens. -/
def litNull : List Char := ['n', 'u', 'l', 'l']

def litTrue : List Char := ['t', 'r', 'u', 'e']

def litFalse : List Char := ['f', 'a', 'l', 's', 'e']

/-- The line break plus indentation inserted after an open bracket and
before each element; nothing in compact mode (empty gap), per ECMA-262
`SerializeJSONObject` / `SerializeJSONArray`. -/
def brNl (gap indent : List Char) : List Char :=
  if gap = [] then [] else '\n' :: indent

mutual

/-- ECMA-262 `JSON.stringify(value, null, gap)` on the value tree, with
`indent` the accumulated indentation of the enclosing level. -/
def stringify (gap indent : List Char) : Json → List Char
  | .null => litNull
  | .bool true => litTrue
  | .bool false => litFalse
  | .num m d => numToChars m d
  | .str s => quoteStr s
  | .arr [] => ['[', ']']
  | .arr (v :: vs) =>
      '[' :: (brNl gap (indent ++ gap) ++ stringifyItems gap (indent ++ gap) (v :: vs) ++
        brNl gap indent ++ [']'])
  | .obj [] => ['{', '}']
  | .obj (kv :: fs) =>
      '{' :: (brNl gap (indent ++ gap) ++ stringifyFields gap (indent ++ gap) (kv :: fs) ++
        brNl gap indent ++ ['}'])

/-- Array elements at one indentation level, separated by a comma and,
with a non-empty gap, a line break plus that indentation. -/
def stringifyItems (gap indent : List Char) : List Json → List Char
  | [] => []
  | [v] => stringify gap indent v
  | v :: vs => stringify gap indent v ++ ',' :: (brNl gap indent ++ stringifyItems gap indent vs)

/-- Object members at one indentation level: quoted key, colon (plus a
space with a non-empty gap), value; separated like array elements. -/
def stringifyFields (gap indent : List Char) : List (List Char × Json) → List Char
  | [] => []
  | [kv] => quoteStr kv.1 ++ ':' :: ((if gap = [] then [] else [' ']) ++ stringify gap indent kv.2)
  | kv :: fs =>
      quoteStr kv.1 ++ ':' :: ((if gap = [] then [] else [' ']) ++ stringify gap indent kv.2) ++
        ',' :: (brNl gap indent ++ stringifyFields gap indent fs)

end

/-- The host serialization `JSON.stringify(v, null, 2)` used by
`formatJSON` (line 147 of src/script.js). -/
def stringifyPretty (v : Json) : List Char :=
  stringify [' ', ' '] [] v

/-- The host serialization `JSON.stringify(v)` used by `minifyJSON`
(line 166 of src/script.js). -/
def stringifyCompact (v : Json) : List Char :=
  stringify [] [] v

/-- Skip JSON grammar whitespace, as `JSON.parse` does between tokens. -/
def skipWs (cs : List Char) : List Char :=
  cs.dropWhile (fun c => isJsonWs c)

/-- Meaning of a single-character string escape (ECMA-404). -/
def unescapeCh (e : Char) : Option Char :=
  if e = '\"' then some '\"'
  else if e = '\\' then some '\\'
  else if e = '/' then some '/'
  else if e = 'b' then some '\x08'
  else if e = 'f' then some '\x0c'
  else if e = 'n' then some '\n'
  else if e = 'r' then some '\r'
  else if e = 't' then some '\t'
  else none

/-- Body of a string literal, the opening quote already consumed:
characters and escapes up to the closing quote. Unescaped control
characters are rejected, as `JSON.parse` rejects them. -/
def parseStrBody (cs : List Char) : Except String (List Char × List Char) :=
  match cs with
  | [] => .error "Unterminated string"
  | c :: rest =>
    if c = '\"' then .ok ([], rest)
    else if c = '\\' then
      match rest with
      | [] => .error "Bad escaped character"
      | e :: rest2 =>
        if e = 'u' then
          match rest2 with
          | h1 :: h2 :: h3 :: h4 :: rest3 =>
            if isHexCh h1 && isHexCh h2 && isHexCh h3 && isHexCh h4 then
              match parseStrBody rest3 with
              | .ok (s, r) =>
                .ok (Char.ofNat (((hexVal h1 * 16 + hexVal h2) * 16 + hexVal h3) * 16 +
                  hexVal h4) :: s, r)
              | .error msg => .error msg
            else .error "Bad Unicode escape"
          | _ => .error "Bad Unicode escape"
        else
          match unescapeCh e with
          | some c2 =>
            match parseStrBody rest2 with
            | .ok (s, r) => .ok (c2 :: s, r)
            | .error msg => .error msg
          | none => .error "Bad escaped character"
    else if c.toNat < 0x20 then .error "Bad control character in string literal"
    else
      match parseStrBody rest with
      | .ok (s, r) => .ok (c :: s, r)
      | .error msg => .error msg
  termination_by cs.length

/-- Optional fraction part `.digits`: its value, its digit count, and
the remaining text. -/
def parseFracPart (cs : List Char) : Except String (Nat × Nat × List Char) :=
  match cs with
  | c :: rest =>
    if c = '.' then
      let ds := rest.takeWhile (fun c => isDigitCh c)
      let rest2 := rest.dropWhile (fun c => isDigitCh c)
      if ds = [] then .error "Missing digits after decimal point"
      else .ok (foldDigits 0 ds, ds.length, rest2)
    else .ok (0, 0, cs)
  | [] => .ok (0, 0, [])

/-- Optional exponent part `[eE][+-]?digits`: its signed value and the
remaining text. -/
def parseExpPart (cs : List Char) : Except String (Int × List Char) :=
  match cs with
  | c :: rest =>
    if c = 'e' || c = 'E' then
      let (esign, rest2) : Bool × List Char :=
        match rest with
        | s :: r2 => if s = '-' then (true, r2) else if s = '+' then (false, r2) else (false, rest)
        | [] => (false, rest)
      let ds := rest2.takeWhile (fun c => isDigitCh c)
      let rest3 := rest2.dropWhile (fun c => isDigitCh c)
      if ds = [] then .error "Missing digits in exponent"
      else .ok (if esign then -(foldDigits 0 ds : Int) else (foldDigits 0 ds : Int), rest3)
    else .ok (0, cs)
  | [] => .ok (0, [])

/-- Fold the exponent into the magnitude/scale pair. -/
def applyExp (mag : Nat) (d : Nat) (e : Int) : Nat × Nat :=
  let t : Int := (d : Int) - e
  if t ≤ 0 then (mag * 10 ^ (-t).toNat, 0) else (mag, t.toNat)

/-- Attach the sign read from the numeral to its magnitude. -/
def signApply (neg : Bool) (mag : Nat) : Int :=
  if neg then -(mag : Int) else (mag : Int)

/-- The unsigned part of a number token: integer part with no leading
zero, optional fraction, optional exponent, converted to the host's
number value in canonical spelling under the sign already read. -/
def parseNumberCore (neg : Bool) (cs1 : List Char) : Except String (Json × List Char) :=
  let ip := cs1.takeWhile (fun c => isDigitCh c)
  let cs2 := cs1.dropWhile (fun c => isDigitCh c)
  if ip = [] then .error "Unexpected token while reading a number"
  else if 1 < ip.length && ip.head? == some '0' then .error "Numbers may not have leading zeroes"
  else
    match parseFracPart cs2 with
    | .error msg => .error msg
    | .ok (fv, fd, cs3) =>
      match parseExpPart cs3 with
      | .error msg => .error msg
      | .ok (e, cs4) =>
        let mag := foldDigits 0 ip * 10 ^ fd + fv
        let (mag2, d2) := applyExp mag fd e
        let m : Int := signApply neg mag2
        let (m3, d3) := normNum m d2
        .ok (.num m3 d3, cs4)

/-- A number token (ECMA-404 grammar: optional minus then the unsigned
part). -/
def parseNumber (cs : List Char) : Except String (Json × List Char) :=
  match cs with
  | c :: rest => if c = '-' then parseNumberCore true rest else parseNumberCore false cs
  | [] => parseNumberCore false []

mutual

/-- One JSON value by recursive descent, leading whitespace skipped,
returning the value and the unconsumed text. The fuel only bounds
nesting; `parseJSON` passes more fuel than any input can use. -/
def parseValue : Nat → List Char → Except String (Json × List Char)
  | 0, _ => .error "Value nested too deeply"
  | fuel + 1, cs =>
    match skipWs cs with
    | [] => .error "Unexpected end of JSON input"
    | c :: rest =>
      if c = 'n' then
        match rest with
        | 'u' :: 'l' :: 'l' :: r => .ok (.null, r)
        | _ => .error "Unexpected token"
      else if c = 't' then
        match rest with
        | 'r' :: 'u' :: 'e' :: r => .ok (.bool true, r)
        | _ => .error "Unexpected token"
      else if c = 'f' then
        match rest with
        | 'a' :: 'l' :: 's' :: 'e' :: r => .ok (.bool false, r)
        | _ => .error "Unexpected token"
      else if c = '\"' then
        match parseStrBody rest with
        | .ok (s, r) => .ok (.str s, r)
        | .error msg => .error msg
      else if c = '[' then
        if (skipWs rest).head? = some ']' then .ok (.arr [], (skipWs rest).tail)
        else
          match parseItems fuel (skipWs rest) with
          | .ok (vs, r) => .ok (.arr vs, r)
          | .error msg => .error msg
      else if c = '\x7b' then
        if (skipWs rest).head? = some '\x7d' then .ok (.obj [], (skipWs rest).tail)
        else
          match parseMembers fuel (skipWs rest) with
          | .ok (fs, r) => .ok (.obj fs, r)
          | .error msg => .error msg
      else if c = '-' || isDigitCh c then parseNumber (c :: rest)
      else .error "Unexpected token"

/-- The elements of a non-empty array, up to and including the closing
bracket. -/
def parseItems : Nat → List Char → Except String (List Json × List Char)
  | 0, _ => .error "Value nested too deeply"
  | fuel + 1, cs =>
    match parseValue fuel cs with
    | .error msg => .error msg
    | .ok (v, r) =>
      match skipWs r with
      | ',' :: r2 =>
        match parseItems fuel r2 with
        | .ok (vs, r3) => .ok (v :: vs, r3)
        | .error msg => .error msg
      | ']' :: r2 => .ok ([v], r2)
      | _ => .error "Expected comma or closing bracket after array element"

/-- The members of a non-empty object, up to and including the closing
brace. -/
def parseMembers : Nat → List Char → Except String (List (List Char × Json) × List Char)
  | 0, _ => .error "Value nested too deeply"
  | fuel + 1, cs =>
    match skipWs cs with
    | '\"' :: r =>
      match parseStrBody r with
      | .error msg => .error msg
      | .ok (k, r2) =>
        match skipWs r2 with
        | ':' :: r3 =>
          match parseValue fuel r3 with
          | .error msg => .error msg
          | .ok (v, r4) =>
            match skipWs r4 with
            | ',' :: r5 =>
              match parseMembers fuel r5 with
              | .ok (fs, r6) => .ok ((k, v) :: fs, r6)
              | .error msg => .error msg
            | '\x7d' :: r5 => .ok ([(k, v)], r5)
            | _ => .error "Expected comma or closing brace after object member"
        | _ => .error "Expected colon after property name"
    | _ => .error "Expected a double-quoted property name"

end

/-- The host `JSON.parse(text)`: one value, with nothing but whitespace
after it. The fuel `length + 1` exceeds the nesting depth any text of
that length can express, so it never runs out on the actual argument. -/
def parseJSON (cs : List Char) : Except String Json :=
  match parseValue (cs.length + 1) cs with
  | .error msg => .error msg
  | .ok (v, rest) =>
    if skipWs rest = [] then .ok v
    else .error "Unexpected non-whitespace character after JSON data"

/-- A text of JSON whitespace only. -/
def WsOnly (cs : List Char) : Prop :=
  ∀ c ∈ cs, isJsonWs c = true

/-- The head of `cs`, if any, falsifies `p`. -/
def HeadNot (p : Char → Bool) (cs : List Char) : Prop :=
  match cs with
  | [] => True
  | c :: _ => p c = false

theorem skipWs_append {ws cs : List Char} (h : WsOnly ws) :
    skipWs (ws ++ cs) = skipWs cs := by
  induction ws with
  | nil => rfl
  | cons c t ih =>
    have hc : isJsonWs c = true := h c (by simp)
    simp only [skipWs, List.cons_append, List.dropWhile_cons, hc, if_true]
    exact ih (fun x hx => h x (by simp [hx]))

theorem skipWs_of_headNot {cs : List Char} (h : HeadNot isJsonWs cs) :
    skipWs cs = cs := by
  cases cs with
  | nil => rfl
  | cons c t =>
    simp only [HeadNot] at h
    simp [skipWs, List.dropWhile_cons, h]

theorem takeWhile_run {p : Char → Bool} {xs rest : List Char}
    (hxs : ∀ c ∈ xs, p c = true) (h : HeadNot p rest) :
    (xs ++ rest).takeWhile p = xs := by
  induction xs with
  | nil =>
    cases rest with
    | nil => rfl
    | cons c t =>
      simp only [HeadNot] at h
      simp [List.takeWhile_cons, h]
  | cons c t ih =>
    have hc : p c = true := hxs c (by simp)
    simp only [List.cons_append, List.takeWhile_cons, hc, if_true]
    rw [ih (fun x hx => hxs x (by simp [hx]))]

theorem dropWhile_run {p : Char → Bool} {xs rest : List Char}
    (hxs : ∀ c ∈ xs, p c = true) (h : HeadNot p rest) :
    (xs ++ rest).dropWhile p = rest := by
  induction xs with
  | nil =>
    cases rest with
    | nil => rfl
    | cons c t =>
      simp only [HeadNot] at h
      simp [List.dropWhile_cons, h]
  | cons c t ih =>
    have hc : p c = true := hxs c (by simp)
    simp only [List.cons_append, List.dropWhile_cons, hc, if_true]
    exact ih (fun x hx => hxs x (by simp [hx]))

theorem foldDigits_acc (cs : List Char) (acc : Nat) :
    foldDigits acc cs = acc * 10 ^ cs.length + foldDigits 0 cs := by
  induction cs generalizing acc with
  | nil => simp [foldDigits]
  | cons c t ih =>
    have h1 : foldDigits acc (c :: t) = foldDigits (10 * acc + digitVal c) t := rfl
    have h2 : foldDigits 0 (c :: t) = foldDigits (digitVal c) t := by
      simp [foldDigits]
    rw [h1, h2, ih (10 * acc + digitVal c), ih (digitVal c)]
    simp [List.length_cons, Nat.pow_succ]
    ring

theorem foldDigits_replicate_zero (k : Nat) : foldDigits 0 (List.replicate k '0') = 0 := by
  induction k with
  | zero => rfl
  | succ n ih =>
    have : foldDigits 0 (List.replicate (n + 1) '0') = foldDigits 0 (List.replicate n '0') := by
      simp [List.replicate_succ, foldDigits, digitVal]
    rw [this, ih]

theorem foldDigits_padZeros (n : Nat) (s : List Char) :
    foldDigits 0 (padZeros n s) = foldDigits 0 s := by
  rw [padZeros, foldDigits_append, foldDigits_replicate_zero]

theorem padZeros_digits {s : List Char} (hs : ∀ c ∈ s, isDigitCh c = true) (n : Nat) :
    ∀ c ∈ padZeros n s, isDigitCh c = true := by
  intro c hc
  rcases List.mem_append.1 hc with h1 | h2
  · have := List.eq_of_mem_replicate h1
    subst this
    decide
  · exact hs c h2

theorem padZeros_length (n : Nat) (s : List Char) :
    (padZeros n s).length = max n s.length := by
  simp [padZeros]
  omega

theorem natToChars_head_ne_zero {n : Nat} (h : n ≠ 0) :
    (natToChars n).head? ≠ some '0' := by
  induction n using Nat.strong_induction_on with
  | _ n ih =>
    rw [natToChars]
    split
    · next hlt =>
      simp only [List.head?_cons, ne_eq, Option.some.injEq]
      intro hc
      apply h
      have : digitVal (digitCh n) = digitVal '0' := by rw [hc]
      rwa [digitVal_digitCh hlt] at this
    · next hlt =>
      rcases hq : natToChars (n / 10) with _ | ⟨c, t⟩
      · exact absurd hq (natToChars_ne_nil _)
      · have hne : n / 10 ≠ 0 := by omega
        have := ih (n / 10) (Nat.div_lt_self (by omega) (by omega)) hne
        rw [hq] at this
        simpa [hq] using this

/-- The text after a printed numeral may not start with anything that
would extend the numeral token. -/
def NumDelim (cs : List Char) : Prop :=
  match cs with
  | [] => True
  | c :: _ => isDigitCh c = false ∧ c ≠ '.' ∧ c ≠ 'e' ∧ c ≠ 'E'

theorem HeadNot_of_numDelim {rest : List Char} (h : NumDelim rest) :
    HeadNot isDigitCh rest := by
  cases rest with
  | nil => trivial
  | cons c t => exact h.1

theorem parseFracPart_none {cs : List Char} (h : NumDelim cs) :
    parseFracPart cs = .ok (0, 0, cs) := by
  cases cs with
  | nil => rfl
  | cons c t =>
    obtain ⟨-, hdot, -, -⟩ := h
    simp [parseFracPart, hdot]

theorem parseExpPart_none {cs : List Char} (h : NumDelim cs) :
    parseExpPart cs = .ok (0, cs) := by
  cases cs with
  | nil => rfl
  | cons c t =>
    obtain ⟨-, -, he, hE⟩ := h
    simp [parseExpPart, he, hE]

theorem isDigitCh_ne_minus {c : Char} (h : isDigitCh c = true) : c ≠ '-' := by
  intro rfl1
  subst rfl1
  exact absurd h (by decide)

/-- `parseNumber` on a well-formed signed digit run followed by a
non-digit: the sign and integer part are consumed as printed. -/
theorem parseNumber_eq (neg : Bool) {ip tail : List Char}
    (hip : ∀ c ∈ ip, isDigitCh c = true) (hne : ip ≠ [])
    (hlz : (1 < ip.length && ip.head? == some '0') = false)
    (htail : HeadNot isDigitCh tail) :
    parseNumber ((if neg then ['-'] else []) ++ (ip ++ tail)) =
      (match parseFracPart tail with
       | .error msg => .error msg
       | .ok (fv, fd, cs3) =>
         match parseExpPart cs3 with
         | .error msg => .error msg
         | .ok (e, cs4) =>
           let mag := foldDigits 0 ip * 10 ^ fd + fv
           let p2 := applyExp mag fd e
           let m : Int := signApply neg p2.1
           let p3 := normNum m p2.2
           .ok (.num p3.1 p3.2, cs4)) := by
  obtain ⟨c, t, rfl⟩ : ∃ c t, ip = c :: t := by
    cases ip with
    | nil => exact absurd rfl hne
    | cons c t => exact ⟨c, t, rfl⟩
  have hc : isDigitCh c = true := hip c (by simp)
  have hcm : c ≠ '-' := isDigitCh_ne_minus hc
  have htake : (c :: t ++ tail).takeWhile (fun x => isDigitCh x) = c :: t :=
    takeWhile_run hip htail
  have hdrop : (c :: t ++ tail).dropWhile (fun x => isDigitCh x) = tail :=
    dropWhile_run hip htail
  cases neg with
  | false =>
    rw [parseNumber.eq_def]
    simp only [Bool.false_eq_true, if_false, List.nil_append, List.cons_append]
    try dsimp only
    rw [if_neg hcm]
    rw [parseNumberCore.eq_def]
    try dsimp only
    rw [← List.cons_append, htake, hdrop]
    rw [if_neg (List.cons_ne_nil c t), if_neg (by rw [hlz]; decide)]
    try simp only [reduceIte]
  | true =>
    rw [parseNumber.eq_def]
    simp only [if_true, List.singleton_append, List.cons_append]
    try dsimp only
    try rw [if_pos rfl]
    rw [parseNumberCore.eq_def]
    try dsimp only
    simp only [List.nil_append]
    simp only [← List.cons_append, htake, hdrop]
    rw [if_neg (List.cons_ne_nil c t), if_neg (by rw [hlz]; decide)]
    try simp only [reduceIte]

/-- Re-parsing a canonical numeral recovers exactly the number value. -/
theorem parseNumber_numToChars {m : Int} {d : Nat} (hn : numNormal m d = true)
    {rest : List Char} (hrest : NumDelim rest) :
    parseNumber (numToChars m d ++ rest) = .ok (.num m d, rest) := by
  have hdig := natToChars_digits m.natAbs
  have hnen := natToChars_ne_nil m.natAbs
  have hfold : foldDigits 0 (natToChars m.natAbs) = m.natAbs := by
    have := foldDigits_natToChars m.natAbs 0
    simpa using this
  cases d with
  | zero =>
    have hsign : numToChars m 0 = (if m < 0 then ['-'] else []) ++ natToChars m.natAbs := by
      simp [numToChars]
    have hlz : (1 < (natToChars m.natAbs).length &&
        (natToChars m.natAbs).head? == some '0') = false := by
      by_cases hz : m.natAbs = 0
      · rw [hz, natToChars]
        simp
      · have := natToChars_head_ne_zero hz
        simp [this]
    rw [hsign, List.append_assoc]
    by_cases hm : m < 0
    · have heq := parseNumber_eq true hdig hnen hlz
        (HeadNot_of_numDelim hrest)
      simp only [reduceIte] at heq
      rw [if_pos hm, heq]
      simp only [parseFracPart_none hrest, parseExpPart_none hrest, hfold, applyExp,
        normNum, signApply]
      norm_num
      simp [abs_of_neg hm]
    · have heq := parseNumber_eq false hdig hnen hlz
        (HeadNot_of_numDelim hrest)
      simp only [Bool.false_eq_true, if_false] at heq
      rw [if_neg hm, heq]
      simp only [parseFracPart_none hrest, parseExpPart_none hrest, hfold, applyExp,
        normNum, signApply]
      norm_num
      try simp [abs_of_nonneg (le_of_not_lt hm)]
      all_goals omega
  | succ e =>
    have hm10 : m % 10 ≠ 0 := by
      intro h10
      rw [numNormal] at hn
      simp [h10] at hn
    have habs0 : m.natAbs ≠ 0 := by
      intro hab
      apply hm10
      omega
    have hslen : (padZeros (e + 2) (natToChars m.natAbs)).length =
        max (e + 2) (natToChars m.natAbs).length := padZeros_length _ _
    have hsdig : ∀ c ∈ padZeros (e + 2) (natToChars m.natAbs), isDigitCh c = true :=
      padZeros_digits hdig _
    have hk1 : 1 ≤ (padZeros (e + 2) (natToChars m.natAbs)).length - (e + 1) := by
      rw [hslen]
      omega
    have hipdig : ∀ c ∈ (padZeros (e + 2) (natToChars m.natAbs)).take
        ((padZeros (e + 2) (natToChars m.natAbs)).length - (e + 1)), isDigitCh c = true :=
      fun c hc => hsdig c (List.mem_of_mem_take hc)
    have hfpdig : ∀ c ∈ (padZeros (e + 2) (natToChars m.natAbs)).drop
        ((padZeros (e + 2) (natToChars m.natAbs)).length - (e + 1)), isDigitCh c = true :=
      fun c hc => hsdig c (List.mem_of_mem_drop hc)
    have hiplen : ((padZeros (e + 2) (natToChars m.natAbs)).take
        ((padZeros (e + 2) (natToChars m.natAbs)).length - (e + 1))).length =
        (padZeros (e + 2) (natToChars m.natAbs)).length - (e + 1) := by
      rw [List.length_take]
      omega
    have hipne : (padZeros (e + 2) (natToChars m.natAbs)).take
        ((padZeros (e + 2) (natToChars m.natAbs)).length - (e + 1)) ≠ [] := by
      apply List.ne_nil_of_length_pos
      rw [hiplen]
      omega
    have hfplen : ((padZeros (e + 2) (natToChars m.natAbs)).drop
        ((padZeros (e + 2) (natToChars m.natAbs)).length - (e + 1))).length = e + 1 := by
      rw [List.length_drop, hslen]
      omega
    have hlz : (1 < ((padZeros (e + 2) (natToChars m.natAbs)).take
          ((padZeros (e + 2) (natToChars m.natAbs)).length - (e + 1))).length &&
        ((padZeros (e + 2) (natToChars m.natAbs)).take
          ((padZeros (e + 2) (natToChars m.natAbs)).length - (e + 1))).head? ==
          some '0') = false := by
      by_cases hpad : (natToChars m.natAbs).length ≤ e + 1
      · have h1 : ((padZeros (e + 2) (natToChars m.natAbs)).take
            ((padZeros (e + 2) (natToChars m.natAbs)).length - (e + 1))).length = 1 := by
          rw [hiplen, hslen]
          omega
        rw [h1]
        simp
      · have hpz : padZeros (e + 2) (natToChars m.natAbs) = natToChars m.natAbs := by
          rw [padZeros]
          have : e + 2 - (natToChars m.natAbs).length = 0 := by omega
          rw [this]
          simp
        obtain ⟨c0, t0, hcons⟩ : ∃ c0 t0, natToChars m.natAbs = c0 :: t0 := by
          rcases hq : natToChars m.natAbs with _ | ⟨a, b⟩
          · exact absurd hq hnen
          · exact ⟨a, b, rfl⟩
        have hk : (padZeros (e + 2) (natToChars m.natAbs)).length - (e + 1) =
            ((padZeros (e + 2) (natToChars m.natAbs)).length - (e + 2)) + 1 := by
          rw [hslen]
          omega
        rw [hk, hpz, hcons, List.take_succ_cons]
        have hhd := natToChars_head_ne_zero habs0
        rw [hcons] at hhd
        simp only [List.head?_cons, ne_eq, Option.some.injEq] at hhd
        simp [hhd]
    have hnum : numToChars m (e + 1) ++ rest =
        (if m < 0 then ['-'] else []) ++
          (((padZeros (e + 2) (natToChars m.natAbs)).take
              ((padZeros (e + 2) (natToChars m.natAbs)).length - (e + 1))) ++
            ('.' :: ((padZeros (e + 2) (natToChars m.natAbs)).drop
              ((padZeros (e + 2) (natToChars m.natAbs)).length - (e + 1)) ++ rest))) := by
      rw [numToChars]
      simp only [Nat.succ_ne_zero, if_false]
      simp [List.append_assoc]
    have htail : HeadNot isDigitCh ('.' :: ((padZeros (e + 2) (natToChars m.natAbs)).drop
        ((padZeros (e + 2) (natToChars m.natAbs)).length - (e + 1)) ++ rest)) := by
      show isDigitCh '.' = false
      decide
    have hfrac : parseFracPart ('.' :: ((padZeros (e + 2) (natToChars m.natAbs)).drop
        ((padZeros (e + 2) (natToChars m.natAbs)).length - (e + 1)) ++ rest)) =
        .ok (foldDigits 0 ((padZeros (e + 2) (natToChars m.natAbs)).drop
          ((padZeros (e + 2) (natToChars m.natAbs)).length - (e + 1))), e + 1, rest) := by
      rw [parseFracPart.eq_def]
      try dsimp only
      rw [if_pos rfl]
      rw [takeWhile_run hfpdig (HeadNot_of_numDelim hrest),
        dropWhile_run hfpdig (HeadNot_of_numDelim hrest)]
      rw [if_neg (by
        apply List.ne_nil_of_length_pos
        rw [hfplen]
        omega)]
      rw [hfplen]
    have hmag : foldDigits 0 ((padZeros (e + 2) (natToChars m.natAbs)).take
          ((padZeros (e + 2) (natToChars m.natAbs)).length - (e + 1))) * 10 ^ (e + 1) +
        foldDigits 0 ((padZeros (e + 2) (natToChars m.natAbs)).drop
          ((padZeros (e + 2) (natToChars m.natAbs)).length - (e + 1))) = m.natAbs := by
      have hsplit := List.take_append_drop
        ((padZeros (e + 2) (natToChars m.natAbs)).length - (e + 1))
        (padZeros (e + 2) (natToChars m.natAbs))
      have h1 : foldDigits 0 (padZeros (e + 2) (natToChars m.natAbs)) = m.natAbs := by
        rw [foldDigits_padZeros]
        have := foldDigits_natToChars m.natAbs 0
        simpa using this
      rw [← hsplit, foldDigits_append, foldDigits_acc, hfplen] at h1
      exact h1
    have happ : applyExp m.natAbs (e + 1) 0 = (m.natAbs, e + 1) := by
      simp only [applyExp]
      rw [if_neg (by push_cast; omega)]
      simp only [Prod.mk.injEq, true_and]
      omega
    rw [hnum]
    by_cases hm : m < 0
    · have hmm : -((m.natAbs : Nat) : Int) = m := by omega
      have heq := parseNumber_eq true hipdig hipne hlz htail
      simp only [reduceIte] at heq
      rw [if_pos hm, heq]
      simp only [hfrac, parseExpPart_none hrest, hmag, happ, signApply, reduceIte, hmm]
      simp only [normNum, if_neg hm10]
    · have hmm : ((m.natAbs : Nat) : Int) = m := by omega
      have heq := parseNumber_eq false hipdig hipne hlz htail
      simp only [Bool.false_eq_true, if_false] at heq
      rw [if_neg hm, heq]
      simp only [hfrac, parseExpPart_none hrest, hmag, happ, signApply,
        Bool.false_eq_true, if_false, hmm]
      simp only [normNum, if_neg hm10]

theorem isHexCh_hexCh {n : Nat} (h : n < 16) : isHexCh (hexCh n) = true := by
  interval_cases n <;> decide

theorem hexVal_hexCh {n : Nat} (h : n < 16) : hexVal (hexCh n) = n := by
  interval_cases n <;> decide

theorem parseStrBody_close (cs : List Char) : parseStrBody ('\"' :: cs) = .ok ([], cs) := by
  rw [parseStrBody.eq_def]
  try dsimp only
  rw [if_pos rfl]

theorem parseStrBody_char {c : Char} (h1 : c ≠ '\"') (h2 : c ≠ '\\')
    (h3 : ¬(c.toNat < 0x20)) (cs : List Char) :
    parseStrBody (c :: cs) =
      match parseStrBody cs with
      | .ok (s, r) => .ok (c :: s, r)
      | .error msg => .error msg := by
  rw [parseStrBody.eq_def]
  try dsimp only
  rw [if_neg h1, if_neg h2, if_neg h3]

theorem parseStrBody_escape (e c2 : Char) (he : unescapeCh e = some c2) (hu : e ≠ 'u')
    (cs : List Char) :
    parseStrBody ('\\' :: e :: cs) =
      match parseStrBody cs with
      | .ok (s, r) => .ok (c2 :: s, r)
      | .error msg => .error msg := by
  rw [parseStrBody.eq_def]
  try dsimp only
  rw [if_neg (by decide), if_pos rfl]
  try dsimp only
  rw [if_neg hu, he]

theorem parseStrBody_unicode {h1 h2 h3 h4 : Char} (hh1 : isHexCh h1 = true)
    (hh2 : isHexCh h2 = true) (hh3 : isHexCh h3 = true) (hh4 : isHexCh h4 = true)
    (cs : List Char) :
    parseStrBody ('\\' :: 'u' :: h1 :: h2 :: h3 :: h4 :: cs) =
      match parseStrBody cs with
      | .ok (s, r) =>
        .ok (Char.ofNat (((hexVal h1 * 16 + hexVal h2) * 16 + hexVal h3) * 16 + hexVal h4) ::
          s, r)
      | .error msg => .error msg := by
  rw [parseStrBody.eq_def]
  try dsimp only
  rw [if_neg (by decide), if_pos rfl]
  try dsimp only
  rw [if_pos rfl]
  try dsimp only
  rw [if_pos (by simp [hh1, hh2, hh3, hh4])]

/-- Re-parsing a quoted string body recovers exactly the characters. -/
theorem parseStrBody_quote (s : List Char) (rest : List Char) :
    parseStrBody ((s.map quoteCh).flatten ++ '\"' :: rest) = .ok (s, rest) := by
  induction s with
  | nil => simp [parseStrBody_close]
  | cons c t ih =>
    simp only [List.map_cons, List.flatten_cons, List.append_assoc]
    by_cases e1 : c = '\"'
    · subst e1
      rw [show quoteCh '\"' = ['\\', '\"'] from rfl]
      rw [List.cons_append, List.cons_append, List.nil_append]
      rw [parseStrBody_escape '\"' '\"' (by decide) (by decide), ih]
    · by_cases e2 : c = '\\'
      · subst e2
        rw [show quoteCh '\\' = ['\\', '\\'] from rfl]
        rw [List.cons_append, List.cons_append, List.nil_append]
        rw [parseStrBody_escape '\\' '\\' (by decide) (by decide), ih]
      · by_cases e3 : c = '\x08'
        · subst e3
          rw [show quoteCh '\x08' = ['\\', 'b'] from rfl]
          rw [List.cons_append, List.cons_append, List.nil_append]
          rw [parseStrBody_escape 'b' '\x08' (by decide) (by decide), ih]
        · by_cases e4 : c = '\x0c'
          · subst e4
            rw [show quoteCh '\x0c' = ['\\', 'f'] from rfl]
            rw [List.cons_append, List.cons_append, List.nil_append]
            rw [parseStrBody_escape 'f' '\x0c' (by decide) (by decide), ih]
          · by_cases e5 : c = '\n'
            · subst e5
              rw [show quoteCh '\n' = ['\\', 'n'] from rfl]
              rw [List.cons_append, List.cons_append, List.nil_append]
              rw [parseStrBody_escape 'n' '\n' (by decide) (by decide), ih]
            · by_cases e6 : c = '\r'
              · subst e6
                rw [show quoteCh '\r' = ['\\', 'r'] from rfl]
                rw [List.cons_append, List.cons_append, List.nil_append]
                rw [parseStrBody_escape 'r' '\r' (by decide) (by decide), ih]
              · by_cases e7 : c = '\t'
                · subst e7
                  rw [show quoteCh '\t' = ['\\', 't'] from rfl]
                  rw [List.cons_append, List.cons_append, List.nil_append]
                  rw [parseStrBody_escape 't' '\t' (by decide) (by decide), ih]
                · by_cases e8 : c.toNat < 0x20
                  · have hq : quoteCh c =
                        ['\\', 'u', '0', '0', hexCh (c.toNat / 16), hexCh (c.toNat % 16)] := by
                      rw [quoteCh]
                      rw [if_neg e1, if_neg e2, if_neg e3, if_neg e4, if_neg e5, if_neg e6,
                        if_neg e7, if_pos e8]
                    rw [hq]
                    simp only [List.cons_append, List.nil_append]
                    rw [parseStrBody_unicode (by decide) (by decide)
                      (isHexCh_hexCh (by omega)) (isHexCh_hexCh (by omega)), ih]
                    have hv : ((hexVal '0' * 16 + hexVal '0') * 16 +
                        hexVal (hexCh (c.toNat / 16))) * 16 + hexVal (hexCh (c.toNat % 16)) =
                        c.toNat := by
                      rw [hexVal_hexCh (by omega), hexVal_hexCh (by omega)]
                      have : hexVal '0' = 0 := by decide
                      rw [this]
                      omega
                    rw [hv, Char.ofNat_toNat]
                  · have hq : quoteCh c = [c] := by
                      rw [quoteCh]
                      rw [if_neg e1, if_neg e2, if_neg e3, if_neg e4, if_neg e5, if_neg e6,
                        if_neg e7, if_neg e8]
                    rw [hq]
                    simp only [List.cons_append, List.nil_append]
                    rw [parseStrBody_char e1 e2 e8, ih]

/-- What may legitimately follow a printed value: the end of the text,
a separator, a closing bracket or brace, or whitespace. -/
def Delim (cs : List Char) : Prop :=
  match cs with
  | [] => True
  | c :: _ => c = ',' ∨ c = ']' ∨ c = '\x7d' ∨ isJsonWs c = true

theorem isJsonWs_cases {c : Char} (h : isJsonWs c = true) :
    c = ' ' ∨ c = '\t' ∨ c = '\n' ∨ c = '\r' := by
  simp only [isJsonWs, Bool.or_eq_true, decide_eq_true_eq] at h
  tauto

theorem NumDelim_of_Delim {cs : List Char} (h : Delim cs) : NumDelim cs := by
  cases cs with
  | nil => trivial
  | cons c t =>
    rcases h with h | h | h | h
    · subst h; exact ⟨by decide, by decide, by decide, by decide⟩
    · subst h; exact ⟨by decide, by decide, by decide, by decide⟩
    · subst h; exact ⟨by decide, by decide, by decide, by decide⟩
    · rcases isJsonWs_cases h with h | h | h | h <;>
        (subst h; exact ⟨by decide, by decide, by decide, by decide⟩)

theorem digitCh_not_special {c : Char} (h : isDigitCh c = true) :
    isJsonWs c = false ∧ c ≠ ']' ∧ c ≠ 'n' ∧ c ≠ 't' ∧ c ≠ 'f' ∧ c ≠ '\"' ∧
      c ≠ '[' ∧ c ≠ '\x7b' := by
  refine ⟨?_, ?_, ?_, ?_, ?_, ?_, ?_, ?_⟩
  · by_contra hws
    rw [Bool.not_eq_false] at hws
    rcases isJsonWs_cases hws with h1 | h1 | h1 | h1 <;>
      (subst h1; exact absurd h (by decide))
  all_goals (intro h1; subst h1; exact absurd h (by decide))

theorem padZeros_cons {s : List Char} (hs : ∀ c ∈ s, isDigitCh c = true) (hne : s ≠ [])
    (n : Nat) : ∃ c t, padZeros n s = c :: t ∧ isDigitCh c = true := by
  rw [padZeros]
  cases hrep : List.replicate (n - s.length) '0' with
  | nil =>
    cases s with
    | nil => exact absurd rfl hne
    | cons a b => exact ⟨a, b, by simp, hs a (by simp)⟩
  | cons r rs =>
    have : r = '0' := by
      have : r ∈ List.replicate (n - s.length) '0' := by rw [hrep]; simp
      exact List.eq_of_mem_replicate this
    subst this
    exact ⟨'0', rs ++ s, by simp, by decide⟩

/-- A printed numeral starts with a minus sign or a digit. -/
theorem numToChars_head (m : Int) (d : Nat) :
    ∃ c t, numToChars m d = c :: t ∧ (c = '-' ∨ isDigitCh c = true) := by
  rw [numToChars]
  by_cases hm : m < 0
  · simp only [hm, if_true]
    by_cases hd : d = 0
    · subst hd
      simp only [if_pos rfl]
      rcases hq : natToChars m.natAbs with _ | ⟨a, b⟩
      · exact absurd hq (natToChars_ne_nil _)
      · exact ⟨'-', a :: b, by simp, Or.inl rfl⟩
    · rw [if_neg hd]
      exact ⟨'-', _, rfl, Or.inl rfl⟩
  · simp only [hm, if_false]
    by_cases hd : d = 0
    · subst hd
      simp only [if_pos rfl]
      rcases hq : natToChars m.natAbs with _ | ⟨a, b⟩
      · exact absurd hq (natToChars_ne_nil _)
      · exact ⟨a, b, by simp, Or.inr (natToChars_digits _ a (by rw [hq]; simp))⟩
    · rw [if_neg hd]
      obtain ⟨c, t, hct, hc⟩ :=
        padZeros_cons (natToChars_digits m.natAbs) (natToChars_ne_nil _) (d + 1)
      have hlen : d + 1 ≤ (padZeros (d + 1) (natToChars m.natAbs)).length := by
        rw [padZeros_length]
        omega
      have hk : (padZeros (d + 1) (natToChars m.natAbs)).length - d =
          ((padZeros (d + 1) (natToChars m.natAbs)).length - (d + 1)) + 1 := by
        omega
      rw [hk, hct, List.take_succ_cons]
      exact ⟨c, _, rfl, Or.inr hc⟩

/-- The first character of any serialized value: never whitespace and
never a closing bracket, so the parser's scan stops exactly there. -/
theorem stringify_cons (gap indent : List Char) (v : Json) :
    ∃ c t, stringify gap indent v = c :: t ∧ isJsonWs c = false ∧ c ≠ ']' := by
  cases v with
  | null => exact ⟨'n', _, rfl, by decide, by decide⟩
  | bool b =>
    cases b with
    | true => exact ⟨'t', _, rfl, by decide, by decide⟩
    | false => exact ⟨'f', _, rfl, by decide, by decide⟩
  | num m d =>
    obtain ⟨c, t, hct, hc⟩ := numToChars_head m d
    refine ⟨c, t, by rw [stringify, hct], ?_, ?_⟩
    · rcases hc with h | h
      · subst h; decide
      · exact (digitCh_not_special h).1
    · rcases hc with h | h
      · subst h; decide
      · exact (digitCh_not_special h).2.1
  | str s => exact ⟨'\"', _, rfl, by decide, by decide⟩
  | arr vs =>
    cases vs with
    | nil => exact ⟨'[', _, rfl, by decide, by decide⟩
    | cons v vs => exact ⟨'[', _, rfl, by decide, by decide⟩
  | obj fs =>
    cases fs with
    | nil => exact ⟨'\x7b', _, rfl, by decide, by decide⟩
    | cons kv fs => exact ⟨'\x7b', _, rfl, by decide, by decide⟩

theorem brNl_wsOnly {gap indent : List Char} (h : WsOnly indent) :
    WsOnly (brNl gap indent) := by
  rw [brNl]
  split
  · intro c hc
    simp at hc
  · intro c hc
    rcases List.mem_cons.1 hc with h1 | h1
    · subst h1; decide
    · exact h c h1

theorem WsOnly_append {a b : List Char} (ha : WsOnly a) (hb : WsOnly b) :
    WsOnly (a ++ b) := by
  intro c hc
  rcases List.mem_append.1 hc with h | h
  · exact ha c h
  · exact hb c h

theorem Delim_brNl {gap indent rest : List Char} {c : Char}
    (hc : c = ',' ∨ c = ']' ∨ c = '\x7d') :
    Delim (brNl gap indent ++ (c :: rest)) := by
  rw [brNl]
  split
  · rw [List.nil_append]
    show c = ',' ∨ c = ']' ∨ c = '\x7d' ∨ isJsonWs c = true
    tauto
  · show '\n' = ',' ∨ '\n' = ']' ∨ '\n' = '\x7d' ∨ isJsonWs '\n' = true
    refine Or.inr (Or.inr (Or.inr ?_))
    decide

/-- A value whose head is skipped over nothing: parsing ignores leading
whitespace. -/
theorem parseValue_ws {ws : List Char} (h : WsOnly ws) (fuel : Nat) (cs : List Char) :
    parseValue fuel (ws ++ cs) = parseValue fuel cs := by
  cases fuel with
  | zero => rfl
  | succ f =>
    rw [parseValue.eq_def, parseValue.eq_def]
    try dsimp only
    rw [skipWs_append h]

mutual

/-- Fuel sufficient for the parser to read one value. -/
def needFuel : Json → Nat
  | .null => 1
  | .bool _ => 1
  | .num _ _ => 1
  | .str _ => 1
  | .arr vs => needItems vs + 1
  | .obj fs => needMembers fs + 1

/-- Fuel sufficient to read the elements of an array. -/
def needItems : List Json → Nat
  | [] => 1
  | v :: vs => max (needFuel v) (needItems vs) + 1

/-- Fuel sufficient to read the members of an object. -/
def needMembers : List (List Char × Json) → Nat
  | [] => 1
  | kv :: fs => max (needFuel kv.2) (needMembers fs) + 1

end

theorem skipWs_cons {c : Char} {cs : List Char} (h : isJsonWs c = false) :
    skipWs (c :: cs) = c :: cs := by
  simp [skipWs, List.dropWhile_cons, h]

theorem stringifyItems_head (gap ind : List Char) (v : Json) (vs : List Json) :
    ∃ c t, stringifyItems gap ind (v :: vs) = c :: t ∧ isJsonWs c = false ∧ c ≠ ']' := by
  obtain ⟨c, t, hct, h1, h2⟩ := stringify_cons gap ind v
  cases vs with
  | nil =>
    refine ⟨c, t, ?_, h1, h2⟩
    rw [stringifyItems, hct]
  | cons w ws2 =>
    refine ⟨c, t ++ ',' :: (brNl gap ind ++ stringifyItems gap ind (w :: ws2)), ?_, h1, h2⟩
    simp only [stringifyItems, hct]
    simp [List.append_assoc]

theorem stringifyFields_head (gap ind : List Char) (kv : List Char × Json)
    (fs : List (List Char × Json)) :
    ∃ t, stringifyFields gap ind (kv :: fs) = '\"' :: t := by
  cases fs with
  | nil =>
    refine ⟨((kv.1.map quoteCh).flatten ++ ['\"']) ++
      ':' :: ((if gap = [] then [] else [' ']) ++ stringify gap ind kv.2), ?_⟩
    simp only [stringifyFields, quoteStr]
    simp [List.append_assoc]
  | cons kw fs2 =>
    refine ⟨((kv.1.map quoteCh).flatten ++ ['\"']) ++
      (':' :: (((if gap = [] then [] else [' ']) ++ stringify gap ind kv.2) ++
        ',' :: (brNl gap ind ++ stringifyFields gap ind (kw :: fs2)))), ?_⟩
    simp only [stringifyFields, quoteStr]
    simp [List.append_assoc]

theorem parseItems_ws {ws : List Char} (h : WsOnly ws) (fuel : Nat) (cs : List Char) :
    parseItems fuel (ws ++ cs) = parseItems fuel cs := by
  cases fuel with
  | zero => rfl
  | succ f =>
    rw [parseItems.eq_def, parseItems.eq_def]
    try dsimp only
    rw [parseValue_ws h]

theorem parseMembers_ws {ws : List Char} (h : WsOnly ws) (fuel : Nat) (cs : List Char) :
    parseMembers fuel (ws ++ cs) = parseMembers fuel cs := by
  cases fuel with
  | zero => rfl
  | succ f =>
    rw [parseMembers.eq_def, parseMembers.eq_def]
    try dsimp only
    rw [skipWs_append h]

theorem spWsOnly (gap : List Char) : WsOnly (if gap = [] then ([] : List Char) else [' ']) := by
  split
  · intro c hc
    simp at hc
  · intro c hc
    simp at hc
    subst hc
    decide

theorem needFuel_pos (v : Json) : 1 ≤ needFuel v := by
  cases v <;> simp [needFuel]

/-- Re-parsing any serialized parser-producible value, under any
whitespace gap, recovers exactly that value and leaves the delimiter. -/
theorem parseValue_stringify :
    ∀ v : Json, normalJson v = true →
      ∀ gap indent fuel rest, WsOnly gap → WsOnly indent → Delim rest →
        needFuel v ≤ fuel →
        parseValue fuel (stringify gap indent v ++ rest) = .ok (v, rest) := by
  intro v
  induction v using Json.recMem with
  | hnull =>
    intro _ gap indent fuel rest hgap hind hrest hfuel
    have hf1 : 1 ≤ fuel := le_trans (needFuel_pos _) hfuel
    obtain ⟨f, rfl⟩ : ∃ f, fuel = f + 1 := ⟨fuel - 1, by omega⟩
    simp only [stringify, litNull]
    rw [List.cons_append, parseValue.eq_def]
    try dsimp only
    rw [skipWs_cons (by decide)]
    try dsimp only
    rw [if_pos rfl]
    simp only [List.cons_append, List.nil_append]
  | hbool b =>
    intro _ gap indent fuel rest hgap hind hrest hfuel
    have hf1 : 1 ≤ fuel := le_trans (needFuel_pos _) hfuel
    obtain ⟨f, rfl⟩ : ∃ f, fuel = f + 1 := ⟨fuel - 1, by omega⟩
    cases b with
    | true =>
      simp only [stringify, litTrue]
      rw [List.cons_append, parseValue.eq_def]
      try dsimp only
      rw [skipWs_cons (by decide)]
      try dsimp only
      rw [if_neg (by decide), if_pos rfl]
      simp only [List.cons_append, List.nil_append]
    | false =>
      simp only [stringify, litFalse]
      rw [List.cons_append, parseValue.eq_def]
      try dsimp only
      rw [skipWs_cons (by decide)]
      try dsimp only
      rw [if_neg (by decide), if_neg (by decide), if_pos rfl]
      simp only [List.cons_append, List.nil_append]
  | hnum m d =>
    intro hnorm gap indent fuel rest hgap hind hrest hfuel
    have hf1 : 1 ≤ fuel := le_trans (needFuel_pos _) hfuel
    obtain ⟨f, rfl⟩ : ∃ f, fuel = f + 1 := ⟨fuel - 1, by omega⟩
    simp only [normalJson] at hnorm
    obtain ⟨c, t, hct, hc⟩ := numToChars_head m d
    have hfacts : isJsonWs c = false ∧ c ≠ 'n' ∧ c ≠ 't' ∧ c ≠ 'f' ∧ c ≠ '\"' ∧
        c ≠ '[' ∧ c ≠ '\x7b' ∧ (decide (c = '-') || isDigitCh c) = true := by
      rcases hc with h | h
      · subst h
        exact ⟨by decide, by decide, by decide, by decide, by decide, by decide, by decide,
          by decide⟩
      · obtain ⟨a1, a2, a3, a4, a5, a6, a7, a8⟩ := digitCh_not_special h
        exact ⟨a1, a3, a4, a5, a6, a7, a8, by simp [h]⟩
    obtain ⟨b1, b2, b3, b4, b5, b6, b7, b8⟩ := hfacts
    simp only [stringify]
    rw [hct, List.cons_append, parseValue.eq_def]
    try dsimp only
    rw [skipWs_cons b1]
    try dsimp only
    rw [if_neg b2, if_neg b3, if_neg b4, if_neg b5, if_neg b6, if_neg b7, if_pos b8]
    rw [← List.cons_append, ← hct]
    exact parseNumber_numToChars hnorm (NumDelim_of_Delim hrest)
  | hstr s =>
    intro _ gap indent fuel rest hgap hind hrest hfuel
    have hf1 : 1 ≤ fuel := le_trans (needFuel_pos _) hfuel
    obtain ⟨f, rfl⟩ : ∃ f, fuel = f + 1 := ⟨fuel - 1, by omega⟩
    simp only [stringify, quoteStr]
    simp only [List.cons_append]
    rw [parseValue.eq_def]
    try dsimp only
    rw [skipWs_cons (by decide)]
    try dsimp only
    rw [if_neg (by decide), if_neg (by decide), if_neg (by decide), if_pos rfl]
    rw [List.append_assoc, List.singleton_append, parseStrBody_quote]
  | harr vs IH =>
    intro hnorm gap indent fuel rest hgap hind hrest hfuel
    have hgi : WsOnly (indent ++ gap) := WsOnly_append hind hgap
    have hf1 : 1 ≤ fuel := le_trans (needFuel_pos _) hfuel
    obtain ⟨f, rfl⟩ : ∃ f, fuel = f + 1 := ⟨fuel - 1, by omega⟩
    simp only [normalJson] at hnorm
    simp only [needFuel] at hfuel
    have Hitems : ∀ ws2 : List Json, (∀ w ∈ ws2, w ∈ vs) → normalItems ws2 = true →
        ∀ fuel2 rest2, needItems ws2 ≤ fuel2 → ws2 ≠ [] →
        parseItems fuel2 (stringifyItems gap (indent ++ gap) ws2 ++
          (brNl gap indent ++ (']' :: rest2))) = .ok (ws2, rest2) := by
      intro ws2
      induction ws2 with
      | nil => intro _ _ _ _ _ h; exact absurd rfl h
      | cons w ws3 ihw =>
        intro hsub hnorm2 fuel2 rest2 hfuel2 _
        have hf2 : 1 ≤ fuel2 := by
          have : 1 ≤ needItems (w :: ws3) := by rw [needItems]; omega
          omega
        obtain ⟨f2, rfl⟩ : ∃ f2, fuel2 = f2 + 1 := ⟨fuel2 - 1, by omega⟩
        rw [needItems] at hfuel2
        have hnw : normalJson w = true ∧ normalItems ws3 = true := by
          simpa [normalItems, Bool.and_eq_true] using hnorm2
        cases ws3 with
        | nil =>
          simp only [stringifyItems]
          rw [parseItems.eq_def]
          try dsimp only
          try rw [List.append_assoc]
          rw [IH w (hsub w (by simp)) hnw.1 gap (indent ++ gap) f2
            (brNl gap indent ++ (']' :: rest2)) hgap hgi
            (Delim_brNl (Or.inr (Or.inl rfl))) (by omega)]
          try dsimp only
          rw [skipWs_append (brNl_wsOnly hind), skipWs_cons (by decide)]
          rfl
        | cons w2 ws4 =>
          simp only [stringifyItems]
          rw [parseItems.eq_def]
          try dsimp only
          simp only [List.cons_append, List.append_assoc]
          rw [IH w (hsub w (by simp)) hnw.1 gap (indent ++ gap) f2
            (',' :: (brNl gap (indent ++ gap) ++
              (stringifyItems gap (indent ++ gap) (w2 :: ws4) ++
                (brNl gap indent ++ (']' :: rest2)))))
            hgap hgi (Or.inl rfl) (by omega)]
          try dsimp only
          rw [skipWs_cons (by decide)]
          simp only [parseItems_ws (brNl_wsOnly hgi),
            ihw (fun x hx => hsub x (by simp [hx])) hnw.2 f2 rest2 (by omega) (by simp)]
    cases vs with
    | nil =>
      simp only [stringify]
      rw [List.cons_append, parseValue.eq_def]
      try dsimp only
      rw [skipWs_cons (by decide)]
      try dsimp only
      rw [if_neg (by decide), if_neg (by decide), if_neg (by decide), if_neg (by decide),
        if_pos rfl]
      rw [List.cons_append, List.nil_append, skipWs_cons (by decide)]
      simp
    | cons v vs2 =>
      simp only [stringify]
      simp only [List.cons_append, List.append_assoc, List.singleton_append, List.nil_append]
      rw [parseValue.eq_def]
      try dsimp only
      rw [skipWs_cons (by decide)]
      try dsimp only
      rw [if_neg (by decide), if_neg (by decide), if_neg (by decide), if_neg (by decide),
        if_pos rfl]
      rw [skipWs_append (brNl_wsOnly hgi)]
      obtain ⟨c, t, hct, hcw, hcb⟩ := stringifyItems_head gap (indent ++ gap) v vs2
      rw [show stringifyItems gap (indent ++ gap) (v :: vs2) ++
          (brNl gap indent ++ (']' :: rest)) = c :: (t ++ (brNl gap indent ++ (']' :: rest)))
        from by rw [hct]; rfl]
      rw [skipWs_cons hcw]
      rw [if_neg (by simp [hcb])]
      rw [show (c : Char) :: (t ++ (brNl gap indent ++ (']' :: rest))) =
          stringifyItems gap (indent ++ gap) (v :: vs2) ++
            (brNl gap indent ++ (']' :: rest)) from by rw [hct]; rfl]
      rw [Hitems (v :: vs2) (fun x hx => hx) hnorm f rest (by omega) (by simp)]
  | hobj fs IH =>
    intro hnorm gap indent fuel rest hgap hind hrest hfuel
    have hgi : WsOnly (indent ++ gap) := WsOnly_append hind hgap
    have hf1 : 1 ≤ fuel := le_trans (needFuel_pos _) hfuel
    obtain ⟨f, rfl⟩ : ∃ f, fuel = f + 1 := ⟨fuel - 1, by omega⟩
    simp only [normalJson] at hnorm
    simp only [needFuel] at hfuel
    have Hmembers : ∀ fs2 : List (List Char × Json), (∀ kv ∈ fs2, kv ∈ fs) →
        normalFields fs2 = true →
        ∀ fuel2 rest2, needMembers fs2 ≤ fuel2 → fs2 ≠ [] →
        parseMembers fuel2 (stringifyFields gap (indent ++ gap) fs2 ++
          (brNl gap indent ++ ('\x7d' :: rest2))) = .ok (fs2, rest2) := by
      intro fs2
      induction fs2 with
      | nil => intro _ _ _ _ _ h; exact absurd rfl h
      | cons kv fs3 ihm =>
        intro hsub hnorm2 fuel2 rest2 hfuel2 _
        have hf2 : 1 ≤ fuel2 := by
          have : 1 ≤ needMembers (kv :: fs3) := by rw [needMembers]; omega
          omega
        obtain ⟨f2, rfl⟩ : ∃ f2, fuel2 = f2 + 1 := ⟨fuel2 - 1, by omega⟩
        rw [needMembers] at hfuel2
        have hnw : normalJson kv.2 = true ∧ normalFields fs3 = true := by
          simpa [normalFields, Bool.and_eq_true] using hnorm2
        cases fs3 with
        | nil =>
          simp only [stringifyFields, quoteStr]
          rw [parseMembers.eq_def]
          try dsimp only
          simp only [List.cons_append, List.append_assoc, List.singleton_append,
            List.nil_append]
          rw [skipWs_cons (by decide)]
          simp only [parseStrBody_quote]
          rw [skipWs_cons (by decide)]
          simp only [parseValue_ws (spWsOnly gap)]
          rw [IH kv (hsub kv (by simp)) hnw.1 gap (indent ++ gap) f2
            (brNl gap indent ++ ('\x7d' :: rest2)) hgap hgi
            (Delim_brNl (Or.inr (Or.inr rfl)))
            (by omega)]
          try dsimp only
          rw [skipWs_append (brNl_wsOnly hind), skipWs_cons (by decide)]
          rfl
        | cons kw fs4 =>
          simp only [stringifyFields, quoteStr]
          rw [parseMembers.eq_def]
          try dsimp only
          simp only [List.cons_append, List.append_assoc, List.singleton_append,
            List.nil_append]
          rw [skipWs_cons (by decide)]
          simp only [parseStrBody_quote]
          rw [skipWs_cons (by decide)]
          simp only [parseValue_ws (spWsOnly gap)]
          rw [IH kv (hsub kv (by simp)) hnw.1 gap (indent ++ gap) f2
            (',' :: (brNl gap (indent ++ gap) ++
              (stringifyFields gap (indent ++ gap) (kw :: fs4) ++
                (brNl gap indent ++ ('\x7d' :: rest2)))))
            hgap hgi (Or.inl rfl) (by omega)]
          try dsimp only
          rw [skipWs_cons (by decide)]
          simp only [parseMembers_ws (brNl_wsOnly hgi),
            ihm (fun x hx => hsub x (by simp [hx])) hnw.2 f2 rest2 (by omega) (by simp)]
    cases fs with
    | nil =>
      simp only [stringify]
      rw [List.cons_append, parseValue.eq_def]
      try dsimp only
      rw [skipWs_cons (by decide)]
      try dsimp only
      rw [if_neg (by decide), if_neg (by decide), if_neg (by decide), if_neg (by decide),
        if_neg (by decide), if_pos rfl]
      rw [List.cons_append, List.nil_append, skipWs_cons (by decide)]
      simp
    | cons kv fs2 =>
      simp only [stringify]
      simp only [List.cons_append, List.append_assoc, List.singleton_append, List.nil_append]
      rw [parseValue.eq_def]
      try dsimp only
      rw [skipWs_cons (by decide)]
      try dsimp only
      rw [if_neg (by decide), if_neg (by decide), if_neg (by decide), if_neg (by decide),
        if_neg (by decide), if_pos rfl]
      rw [skipWs_append (brNl_wsOnly hgi)]
      obtain ⟨t, hct⟩ := stringifyFields_head gap (indent ++ gap) kv fs2
      rw [show stringifyFields gap (indent ++ gap) (kv :: fs2) ++
          (brNl gap indent ++ ('\x7d' :: rest)) =
          '\"' :: (t ++ (brNl gap indent ++ ('\x7d' :: rest)))
        from by rw [hct]; rfl]
      rw [skipWs_cons (by decide)]
      rw [if_neg (by simp)]
      rw [show ('\"' : Char) :: (t ++ (brNl gap indent ++ ('\x7d' :: rest))) =
          stringifyFields gap (indent ++ gap) (kv :: fs2) ++
            (brNl gap indent ++ ('\x7d' :: rest)) from by rw [hct]; rfl]
      rw [Hmembers (kv :: fs2) (fun x hx => hx) hnorm f rest (by omega) (by simp)]

theorem needFuel_le_stringify :
    ∀ v : Json, ∀ gap indent, needFuel v ≤ (stringify gap indent v).length + 1 := by
  intro v
  induction v using Json.recMem with
  | hnull => intro gap ind; simp [needFuel, stringify]
  | hbool b => intro gap ind; cases b <;> simp [needFuel, stringify]
  | hnum m d => intro gap ind; simp [needFuel]
  | hstr s => intro gap ind; simp [needFuel]
  | harr vs IH =>
    intro gap ind
    have Hlist : ∀ ws2 : List Json, ws2 ≠ [] → (∀ w ∈ ws2, w ∈ vs) →
        needItems ws2 ≤ (stringifyItems gap (ind ++ gap) ws2).length + 2 := by
      intro ws2
      induction ws2 with
      | nil => intro h; exact absurd rfl h
      | cons w ws3 ihw =>
        intro _ hsub
        cases ws3 with
        | nil =>
          have h1 := IH w (hsub w (by simp)) gap (ind ++ gap)
          simp only [needItems, stringifyItems]
          omega
        | cons w2 ws4 =>
          have h1 := IH w (hsub w (by simp)) gap (ind ++ gap)
          have h2 := ihw (by simp) (fun x hx => hsub x (by simp [hx]))
          simp only [needItems, stringifyItems] at h2 ⊢
          simp only [List.length_append, List.length_cons]
          omega
    cases vs with
    | nil => simp [needFuel, needItems, stringify]
    | cons v vs2 =>
      have h := Hlist (v :: vs2) (by simp) (fun x hx => hx)
      simp only [needFuel, stringify]
      simp only [List.length_cons, List.length_append]
      omega
  | hobj fs IH =>
    intro gap ind
    have Hlist : ∀ fs2 : List (List Char × Json), fs2 ≠ [] → (∀ kv ∈ fs2, kv ∈ fs) →
        needMembers fs2 ≤ (stringifyFields gap (ind ++ gap) fs2).length + 2 := by
      intro fs2
      induction fs2 with
      | nil => intro h; exact absurd rfl h
      | cons kv fs3 ihm =>
        intro _ hsub
        cases fs3 with
        | nil =>
          have h1 := IH kv (hsub kv (by simp)) gap (ind ++ gap)
          simp only [needMembers, stringifyFields]
          simp only [List.length_append, List.length_cons]
          omega
        | cons kw fs4 =>
          have h1 := IH kv (hsub kv (by simp)) gap (ind ++ gap)
          have h2 := ihm (by simp) (fun x hx => hsub x (by simp [hx]))
          simp only [needMembers, stringifyFields] at h2 ⊢
          simp only [List.length_append, List.length_cons]
          omega
    cases fs with
    | nil => simp [needFuel, needMembers, stringify]
    | cons kv fs2 =>
      have h := Hlist (kv :: fs2) (by simp) (fun x hx => hx)
      simp only [needFuel, stringify]
      simp only [List.length_cons, List.length_append]
      omega

/-- `JSON.parse` inverts `JSON.stringify` for any whitespace gap. -/
theorem parseJSON_stringify {v : Json} (hnorm : normalJson v = true) {gap : List Char}
    (hgap : WsOnly gap) :
    parseJSON (stringify gap [] v) = .ok v := by
  have hlen := needFuel_le_stringify v gap []
  have h := parseValue_stringify v hnorm gap [] ((stringify gap [] v).length + 1) []
    hgap (by intro c hc; simp at hc) trivial hlen
  rw [List.append_nil] at h
  rw [parseJSON.eq_def, h]
  try dsimp only
  rw [if_pos (show skipWs [] = [] from rfl)]

theorem normNum_normal (m : Int) (d : Nat) :
    numNormal (normNum m d).1 (normNum m d).2 = true := by
  induction d generalizing m with
  | zero => simp [normNum, numNormal]
  | succ n ih =>
    rw [normNum]
    split
    · exact ih _
    · next h => simp [numNormal, h]

theorem not_error_eq_ok {α : Type} {msg : String} {x : α}
    (h : (Except.error msg : Except String α) = Except.ok x) : False := by
  simp at h

theorem normal_of_ok_eq {A : Json} {c4 r : List Char} {v : Json}
    (h : (Except.ok (A, c4) : Except String (Json × List Char)) = Except.ok (v, r))
    (hA : normalJson A = true) : normalJson v = true := by
  simp only [Except.ok.injEq, Prod.mk.injEq] at h
  rw [← h.1]
  exact hA

theorem normalItems_of_ok_eq {A : List Json} {c4 r : List Char} {vs : List Json}
    (h : (Except.ok (A, c4) : Except String (List Json × List Char)) = Except.ok (vs, r))
    (hA : normalItems A = true) : normalItems vs = true := by
  simp only [Except.ok.injEq, Prod.mk.injEq] at h
  rw [← h.1]
  exact hA

theorem normalFields_of_ok_eq {A : List (List Char × Json)} {c4 r : List Char}
    {fs : List (List Char × Json)}
    (h : (Except.ok (A, c4) : Except String (List (List Char × Json) × List Char)) =
      Except.ok (fs, r))
    (hA : normalFields A = true) : normalFields fs = true := by
  simp only [Except.ok.injEq, Prod.mk.injEq] at h
  rw [← h.1]
  exact hA

theorem parseNumberCore_normal {neg : Bool} {cs1 : List Char} {v : Json} {r : List Char}
    (h : parseNumberCore neg cs1 = .ok (v, r)) : normalJson v = true := by
  rw [parseNumberCore.eq_def] at h
  try dsimp only at h
  by_cases hA : cs1.takeWhile (fun c => isDigitCh c) = []
  · rw [if_pos hA] at h
    exact absurd h (by simp)
  · rw [if_neg hA] at h
    by_cases hB : (1 < (cs1.takeWhile (fun c => isDigitCh c)).length &&
        (cs1.takeWhile (fun c => isDigitCh c)).head? == some '0') = true
    · rw [if_pos hB] at h
      exact absurd h (by simp)
    · rw [if_neg hB] at h
      cases hf : parseFracPart (cs1.dropWhile (fun c => isDigitCh c)) with
      | error e =>
        rw [hf] at h
        exact absurd h (by simp)
      | ok t3 =>
        obtain ⟨fv, fd, cs3⟩ := t3
        rw [hf] at h
        try dsimp only at h
        cases he : parseExpPart cs3 with
        | error e =>
          rw [he] at h
          exact absurd h (by simp)
        | ok t2 =>
          obtain ⟨e, cs4⟩ := t2
          rw [he] at h
          try dsimp only at h
          simp only [Except.ok.injEq, Prod.mk.injEq] at h
          obtain ⟨h1, h2⟩ := h
          subst h1
          simp only [normalJson]
          exact normNum_normal _ _

theorem parseNumber_normal {cs : List Char} {v : Json} {r : List Char}
    (h : parseNumber cs = .ok (v, r)) : normalJson v = true := by
  rw [parseNumber.eq_def] at h
  repeat' split at h
  all_goals exact parseNumberCore_normal (by assumption)

/-- Every value the parser can produce is in canonical (normalized)
form: the converse justification for the round-trip hypothesis. -/
theorem parse_normal_all : ∀ fuel : Nat,
    (∀ cs v r, parseValue fuel cs = .ok (v, r) → normalJson v = true) ∧
    (∀ cs vs r, parseItems fuel cs = .ok (vs, r) → normalItems vs = true) ∧
    (∀ cs fs r, parseMembers fuel cs = .ok (fs, r) → normalFields fs = true) := by
  intro fuel
  induction fuel with
  | zero =>
    refine ⟨?_, ?_, ?_⟩ <;> (intro cs a b h; exact absurd h (by simp [parseValue,
      parseItems, parseMembers]))
  | succ f ih =>
    obtain ⟨ihv, ihi, ihm⟩ := ih
    refine ⟨?_, ?_, ?_⟩
    · intro cs v r h
      rw [parseValue.eq_def] at h
      try dsimp only at h
      repeat' split at h
      all_goals first
        | exact (not_error_eq_ok (by assumption)).elim
        | exact parseNumber_normal (by assumption)
        | exact normal_of_ok_eq (by assumption)
            (by simp only [normalJson]; exact ihi _ _ _ (by assumption))
        | exact normal_of_ok_eq (by assumption)
            (by simp only [normalJson]; exact ihm _ _ _ (by assumption))
        | exact normal_of_ok_eq (by assumption)
            (by simp [normalJson, normalItems, normalFields])
    · intro cs vs r h
      rw [parseItems.eq_def] at h
      try dsimp only at h
      repeat' split at h
      all_goals first
        | exact (not_error_eq_ok (by assumption)).elim
        | exact normalItems_of_ok_eq (by assumption)
            (by simp only [normalItems, Bool.and_eq_true]
                exact ⟨ihv _ _ _ (by assumption), ihi _ _ _ (by assumption)⟩)
        | exact normalItems_of_ok_eq (by assumption)
            (by simp only [normalItems, Bool.and_eq_true]
                exact ⟨ihv _ _ _ (by assumption), by simp [normalItems]⟩)
    · intro cs fs r h
      rw [parseMembers.eq_def] at h
      try dsimp only at h
      repeat' split at h
      all_goals first
        | exact (not_error_eq_ok (by assumption)).elim
        | exact normalFields_of_ok_eq (by assumption)
            (by simp only [normalFields, Bool.and_eq_true]
                exact ⟨ihv _ _ _ (by assumption), ihm _ _ _ (by assumption)⟩)
        | exact normalFields_of_ok_eq (by assumption)
            (by simp only [normalFields, Bool.and_eq_true]
                exact ⟨ihv _ _ _ (by assumption), by simp [normalFields]⟩)

/-- A successful `JSON.parse` yields a canonical value. -/
theorem parseJSON_normal {cs : List Char} {v : Json} (h : parseJSON cs = .ok v) :
    normalJson v = true := by
  rw [parseJSON.eq_def] at h
  split at h
  · exact absurd h (by simp)
  · next v2 rest heq =>
    split at h
    · simp only [Except.ok.injEq] at h
      subst h
      exact (parse_normal_all _).1 _ _ _ heq
    · exact absurd h (by simp)

/-! ## The application layer of src/script.js -/

/-- `String.prototype.trim`: strip leading and trailing ECMAScript
whitespace (src/script.js line 34 and elsewhere). -/
def trimJs (cs : List Char) : List Char :=
  ((cs.dropWhile (fun c => isJsWs c)).reverse.dropWhile (fun c => isJsWs c)).reverse

/-- UTF-8 byte length of one character, as `new Blob([text]).size`
counts it. -/
def utf8CharLen (c : Char) : Nat :=
  if c.toNat < 0x80 then 1
  else if c.toNat < 0x800 then 2
  else if c.toNat < 0x10000 then 3
  else 4

/-- `new Blob([text]).size`: the UTF-8 byte length of the text
(src/script.js line 100). -/
def blobSize (cs : List Char) : Nat :=
  (cs.map utf8CharLen).sum

/-- Occurrences of a character in a text. -/
def countCh (c : Char) (cs : List Char) : Nat :=
  cs.countP (fun x => x = c)

/-- `updateStatistics` (src/script.js lines 99-105): byte size of the
text and `text ? text.split('\n').length : 0` as the line count. -/
def updateStatistics (text : List Char) : Nat × Nat :=
  (blobSize text, if text = [] then 0 else countCh '\n' text + 1)

/-- Lower-case a Latin capital, for the case-insensitive regex tests. -/
def lowerCh (c : Char) : Char :=
  if 'A' ≤ c && c ≤ 'Z' then Char.ofNat (c.toNat + 32) else c

/-- Does the text start with the pattern, ignoring case? The pattern is
given in lower case. -/
def startsWithCI : List Char → List Char → Bool
  | [], _ => true
  | _ :: _, [] => false
  | p :: ps, c :: cs => lowerCh c = p && startsWithCI ps cs

/-- Does `/pat(\d+)/i` match somewhere in the text: the pattern followed
immediately by a digit (src/script.js lines 81-82)? -/
def containsTokNum (pat : List Char) : List Char → Bool
  | [] => false
  | c :: rest =>
    (startsWithCI pat (c :: rest) &&
      (match (c :: rest).drop pat.length with
       | d :: _ => isDigitCh d
       | [] => false)) || containsTokNum pat rest

/-- Error-message classification of `validateJSON` (src/script.js lines
80-88): a line or position indicator selects the Syntax Error label. -/
def formatErrMsg (msg : String) : String :=
  if containsTokNum ('l' :: 'i' :: 'n' :: 'e' :: [' ']) msg.toList ||
      containsTokNum ('p' :: 'o' :: 's' :: 'i' :: 't' :: 'i' :: 'o' :: 'n' :: [' '])
        msg.toList then
    "❌ Syntax Error: " ++ msg
  else "❌ Invalid JSON: " ++ msg

/-- The three states `validateJSON` leaves the UI in: Ready, Valid, or
Invalid with a displayed message. -/
inductive ValidationOutcome where
  | empty : ValidationOutcome
  | valid (v : Json) : ValidationOutcome
  | invalid (msg : String) : ValidationOutcome

/-- Everything one call to `validateJSON` (src/script.js lines 32-94)
computes: the text written to `localStorage`, the two statistics, the
outcome, and the two module-level globals it assigns. `jsonData` is the
host's `null` (`Json.null`) when there is no parsed value, exactly as
the script stores JS `null` in that variable. -/
structure ValidateResult where
  stored : List Char
  byteSize : Nat
  lineCount : Nat
  outcome : ValidationOutcome
  isValidJSON : Bool
  jsonData : Json

/-- `validateJSON` (src/script.js lines 32-94). -/
def validateJSON (raw : List Char) : ValidateResult :=
  let text := trimJs raw
  let stats := updateStatistics text
  if text = [] then
    { stored := text, byteSize := stats.1, lineCount := stats.2, outcome := .empty,
      isValidJSON := false, jsonData := .null }
  else
    match parseJSON text with
    | .ok v =>
      { stored := text, byteSize := stats.1, lineCount := stats.2, outcome := .valid v,
        isValidJSON := true, jsonData := v }
    | .error e =>
      { stored := text, byteSize := stats.1, lineCount := stats.2,
        outcome := .invalid (formatErrMsg e), isValidJSON := false, jsonData := .null }

mutual

/-- The `traverse` closure of `analyzeJSON` (src/script.js lines
123-131), with the two counters `(objects, arrays)` passed explicitly. -/
def traverse (st : Nat × Nat) : Json → Nat × Nat
  | .arr vs => traverseItems (st.1, st.2 + 1) vs
  | .obj fs => traverseFields (st.1 + 1, st.2) fs
  | _ => st

def traverseItems (st : Nat × Nat) : List Json → Nat × Nat
  | [] => st
  | v :: vs => traverseItems (traverse st v) vs

def traverseFields (st : Nat × Nat) : List (List Char × Json) → Nat × Nat
  | [] => st
  | kv :: fs => traverseFields (traverse st kv.2) fs

end

/-- `analyzeJSON` (src/script.js lines 119-135): `(objects, arrays)`. -/
def analyzeJSON (data : Json) : Nat × Nat :=
  traverse (0, 0) data

/-- JS truthiness of a parsed JSON value: `null`, `false`, `0` and the
empty string are falsy; every other value, arrays and objects included,
is truthy. -/
def jsTruthy (v : Json) : Bool :=
  match v with
  | .null => false
  | .bool b => b
  | .num m _ => decide (m ≠ 0)
  | .str s => decide (s ≠ [])
  | .arr _ => true
  | .obj _ => true

/-- Notification category of `showNotification` (src/script.js lines
367-376). -/
inductive NotifKind where
  | success : NotifKind
  | error : NotifKind

/-- A transient notification shown to the user. -/
structure Notif where
  message : String
  kind : NotifKind

/-- The module-level state the script keeps between operations: the
editor text and the globals `isValidJSON` and `jsonData` (src/script.js
lines 3-4); `jsonData` holds the host's `null` when there is no value. -/
structure EditorState where
  text : List Char
  isValidJSON : Bool
  jsonData : Json

/-- The state after `validateJSON` runs against editor text `raw`: the
editor text is untouched; the globals are reassigned. -/
def applyValidate (raw : List Char) : EditorState :=
  { text := raw, isValidJSON := (validateJSON raw).isValidJSON,
    jsonData := (validateJSON raw).jsonData }

/-- `formatJSON` (src/script.js lines 140-154). -/
def formatJSON (st : EditorState) : EditorState × Notif :=
  if !st.isValidJSON || !jsTruthy st.jsonData then
    (st, ⟨"Please enter valid JSON first!", .error⟩)
  else
    (applyValidate (stringifyPretty st.jsonData), ⟨"JSON formatted successfully!", .success⟩)

/-- `minifyJSON` (src/script.js lines 159-173). -/
def minifyJSON (st : EditorState) : EditorState × Notif :=
  if !st.isValidJSON || !jsTruthy st.jsonData then
    (st, ⟨"Please enter valid JSON first!", .error⟩)
  else
    (applyValidate (stringifyCompact st.jsonData), ⟨"JSON minified successfully!", .success⟩)

/-- `text.replace(/\s+/g, ' ')` (src/script.js line 187), processed one
character at a time: every maximal whitespace run becomes one space.
`inWs` records that the current run has already emitted its space. -/
def collapseGo (inWs : Bool) : List Char → List Char
  | [] => []
  | c :: rest =>
    if isJsWs c then
      if inWs then collapseGo true rest else ' ' :: collapseGo true rest
    else c :: collapseGo false rest

/-- `text.replace(/\s+/g, ' ')` (src/script.js line 187). -/
def collapseWs (cs : List Char) : List Char :=
  collapseGo false cs

/-- The structural characters of the compress regex
`/\s*([{}[\],:])\s*/g` (src/script.js line 188). -/
def isStructCh (c : Char) : Bool :=
  c = '\x7b' || c = '\x7d' || c = '[' || c = ']' || c = ',' || c = ':'

/-- `text.replace(/\s*([{}[\],:])\s*/g, '$1')` (src/script.js line 188),
processed one character at a time. The regex engine scans left to
right; a match is a (possibly empty) whitespace run, a structural
character, and the following whitespace run, replaced by the structural
character alone — so a whitespace run is deleted exactly when it
touches a structural character, and whitespace directly after a
structural character is always consumed. `pending` buffers the
whitespace run whose fate is still open; `afterStruct` records that the
engine is inside the trailing `\s*` of a match, where whitespace is
consumed outright. -/
def stripGo (pending : List Char) (afterStruct : Bool) : List Char → List Char
  | [] => pending
  | c :: rest =>
    if isStructCh c then c :: stripGo [] true rest
    else if isJsWs c then
      if afterStruct then stripGo [] true rest
      else stripGo (pending ++ [c]) false rest
    else pending ++ c :: stripGo [] false rest

/-- `text.replace(/\s*([{}[\],:])\s*/g, '$1')` (src/script.js line
188). -/
def stripAroundStruct (cs : List Char) : List Char :=
  stripGo [] false cs

/-- `compressJSON` (src/script.js lines 178-194). -/
def compressJSON (st : EditorState) : EditorState × Notif :=
  let text := trimJs st.text
  if text = [] then (st, ⟨"Please enter some JSON first!", .error⟩)
  else
    let compressed := trimJs (stripAroundStruct (collapseWs text))
    (applyValidate compressed, ⟨"Whitespace removed successfully!", .success⟩)

/-- The fixed sample document of `loadSampleJSON` (src/script.js lines
284-315). -/
def sampleJSON : Json :=
  .obj [
    ("name".toList, .str "John Doe".toList),
    ("age".toList, .num 30 0),
    ("email".toList, .str "john.doe@example.com".toList),
    ("address".toList, .obj [
      ("street".toList, .str "123 Main St".toList),
      ("city".toList, .str "New York".toList),
      ("zipCode".toList, .str "10001".toList),
      ("country".toList, .str "USA".toList)]),
    ("hobbies".toList, .arr [.str "reading".toList, .str "coding".toList,
      .str "traveling".toList, .str "photography".toList]),
    ("isActive".toList, .bool true),
    ("skills".toList, .arr [
      .obj [("name".toList, .str "JavaScript".toList),
        ("level".toList, .str "Advanced".toList)],
      .obj [("name".toList, .str "Python".toList),
        ("level".toList, .str "Intermediate".toList)],
      .obj [("name".toList, .str "React".toList),
        ("level".toList, .str "Advanced".toList)]]),
    ("socialMedia".toList, .obj [
      ("twitter".toList, .str "@johndoe".toList),
      ("linkedin".toList, .str "linkedin.com/in/johndoe".toList),
      ("github".toList, .str "github.com/johndoe".toList)])]

/-- `loadSampleJSON` (src/script.js lines 283-320): the editor receives
`JSON.stringify(sampleJSON, null, 2)` and `validateJSON` runs. -/
def loadSampleJSON : EditorState × Notif :=
  (applyValidate (stringifyPretty sampleJSON), ⟨"Sample JSON loaded!", .success⟩)

theorem isDigitCh_toNat_bounds {c : Char} (h : isDigitCh c = true) :
    48 ≤ c.toNat ∧ c.toNat ≤ 57 := by
  simp only [isDigitCh, Bool.and_eq_true, decide_eq_true_eq] at h
  exact ⟨h.1, h.2⟩

theorem isDigitCh_not_jsWs {c : Char} (h : isDigitCh c = true) : isJsWs c = false := by
  obtain ⟨h1, h2⟩ := isDigitCh_toNat_bounds h
  have n1 : ¬ (c = ' ') := fun he => absurd h (by subst he; decide)
  have n2 : ¬ (c = '\t') := fun he => absurd h (by subst he; decide)
  have n3 : ¬ (c = '\n') := fun he => absurd h (by subst he; decide)
  have n4 : ¬ (c = '\r') := fun he => absurd h (by subst he; decide)
  simp [isJsWs, n1, n2, n3, n4]
  omega

theorem eval_parse_x : parseJSON ['x'] = .error "Unexpected token" := by
  simp [parseJSON, parseValue, skipWs, isJsonWs, isDigitCh]

theorem eval_parse_one : parseJSON ['1'] = .ok (.num 1 0) := by
  simp [parseJSON, parseValue, skipWs, parseNumber, parseNumberCore, parseFracPart,
    parseExpPart, applyExp, signApply, normNum, isDigitCh, isJsonWs, digitVal, foldDigits]

theorem eval_parse_null : parseJSON ('n' :: 'u' :: 'l' :: ['l']) = .ok .null := by
  simp [parseJSON, parseValue, skipWs, isJsonWs]

theorem eval_parse_lbrace : parseJSON ['\x7b'] =
    .error "Expected a double-quoted property name" := by
  simp [parseJSON, parseValue, skipWs, isJsonWs, parseMembers]

/-! ## First characters, last characters, and trimming of serialized output -/

/-- The first character of any serialized value is never ECMAScript
whitespace, so `trim` does not touch it. -/
theorem stringify_head_nojsws (gap indent : List Char) (v : Json) :
    ∃ c t, stringify gap indent v = c :: t ∧ isJsWs c = false := by
  cases v with
  | null => exact ⟨'n', _, rfl, by decide⟩
  | bool b =>
    cases b with
    | true => exact ⟨'t', _, rfl, by decide⟩
    | false => exact ⟨'f', _, rfl, by decide⟩
  | num m d =>
    obtain ⟨c, t, hct, hc⟩ := numToChars_head m d
    refine ⟨c, t, by rw [stringify, hct], ?_⟩
    rcases hc with h | h
    · subst h; decide
    · exact isDigitCh_not_jsWs h
  | str s => exact ⟨'\"', _, rfl, by decide⟩
  | arr vs =>
    cases vs with
    | nil => exact ⟨'[', _, rfl, by decide⟩
    | cons v vs => exact ⟨'[', _, rfl, by decide⟩
  | obj fs =>
    cases fs with
    | nil => exact ⟨'\x7b', _, rfl, by decide⟩
    | cons kv fs => exact ⟨'\x7b', _, rfl, by decide⟩

theorem concat_decomp {l : List Char} (h : l ≠ []) :
    ∃ t c, l = t ++ [c] ∧ c ∈ l :=
  ⟨l.dropLast, l.getLast h, (List.dropLast_append_getLast h).symm, List.getLast_mem h⟩

theorem natToChars_last (n : Nat) :
    ∃ t c, natToChars n = t ++ [c] ∧ isDigitCh c = true := by
  obtain ⟨t, c, h1, h2⟩ := concat_decomp (natToChars_ne_nil n)
  exact ⟨t, c, h1, natToChars_digits n c h2⟩

/-- A printed numeral ends with a digit. -/
theorem numToChars_last (m : Int) (d : Nat) :
    ∃ t c, numToChars m d = t ++ [c] ∧ isDigitCh c = true := by
  rw [numToChars]
  by_cases hd : d = 0
  · subst hd
    obtain ⟨t, c, h1, h2⟩ := natToChars_last m.natAbs
    refine ⟨(if m < 0 then ['-'] else []) ++ t, c, ?_, h2⟩
    rw [if_pos rfl, h1, List.append_assoc]
  · rw [if_neg hd]
    have hlen : d + 1 ≤ (padZeros (d + 1) (natToChars m.natAbs)).length := by
      rw [padZeros_length]
      omega
    have hdne : (padZeros (d + 1) (natToChars m.natAbs)).drop
        ((padZeros (d + 1) (natToChars m.natAbs)).length - d) ≠ [] := by
      intro hcon
      have hc2 := congrArg List.length hcon
      rw [List.length_drop] at hc2
      simp only [List.length_nil] at hc2
      omega
    obtain ⟨t, c, h1, h2⟩ := concat_decomp hdne
    refine ⟨(if m < 0 then ['-'] else []) ++
      (padZeros (d + 1) (natToChars m.natAbs)).take
        ((padZeros (d + 1) (natToChars m.natAbs)).length - d) ++ '.' :: t, c, ?_,
      padZeros_digits (natToChars_digits m.natAbs) (d + 1) c (List.mem_of_mem_drop h2)⟩
    dsimp only
    rw [h1]
    simp only [List.append_assoc, List.cons_append]

/-- A quoted string literal ends with its closing quote. -/
theorem quoteStr_last (s : List Char) :
    ∃ t, quoteStr s = t ++ ['\"'] := by
  exact ⟨'\"' :: (s.map quoteCh).flatten, by rw [quoteStr]⟩

/-- The last character of any serialized value is never ECMAScript
whitespace, so `trim` does not touch it either. -/
theorem stringify_last_nojsws (gap indent : List Char) (v : Json) :
    ∃ t c, stringify gap indent v = t ++ [c] ∧ isJsWs c = false := by
  cases v with
  | null => exact ⟨['n', 'u', 'l'], 'l', rfl, by decide⟩
  | bool b =>
    cases b with
    | true => exact ⟨['t', 'r', 'u'], 'e', rfl, by decide⟩
    | false => exact ⟨['f', 'a', 'l', 's'], 'e', rfl, by decide⟩
  | num m d =>
    obtain ⟨t, c, h1, h2⟩ := numToChars_last m d
    exact ⟨t, c, by rw [stringify, h1], isDigitCh_not_jsWs h2⟩
  | str s =>
    obtain ⟨t, h1⟩ := quoteStr_last s
    exact ⟨t, '\"', by rw [stringify, h1], by decide⟩
  | arr vs =>
    cases vs with
    | nil => exact ⟨['['], ']', rfl, by decide⟩
    | cons v vs =>
      refine ⟨'[' :: (brNl gap (indent ++ gap) ++ stringifyItems gap (indent ++ gap) (v :: vs) ++
        brNl gap indent), ']', ?_, by decide⟩
      rw [stringify, List.cons_append]
  | obj fs =>
    cases fs with
    | nil => exact ⟨['\x7b'], '\x7d', rfl, by decide⟩
    | cons kv fs =>
      refine ⟨'\x7b' :: (brNl gap (indent ++ gap) ++ stringifyFields gap (indent ++ gap) (kv :: fs) ++
        brNl gap indent), '\x7d', ?_, by decide⟩
      rw [stringify, List.cons_append]

/-- `trim` leaves a text alone when neither end is ECMAScript
whitespace. -/
theorem trimJs_eq_self {cs : List Char} {c0 cl : Char} {t0 tl : List Char}
    (h0 : cs = c0 :: t0) (h0w : isJsWs c0 = false)
    (hl : cs = tl ++ [cl]) (hlw : isJsWs cl = false) :
    trimJs cs = cs := by
  rw [trimJs]
  have h1 : cs.dropWhile (fun c => isJsWs c) = cs := by
    rw [h0, List.dropWhile_cons]
    simp [h0w]
  rw [h1]
  have h2 : cs.reverse.dropWhile (fun c => isJsWs c) = cs.reverse := by
    rw [hl, List.reverse_append]
    simp only [List.reverse_cons, List.reverse_nil, List.nil_append, List.singleton_append]
    rw [List.dropWhile_cons]
    simp [hlw]
  rw [h2, List.reverse_reverse]

theorem wsOnly_two_spaces : WsOnly [' ', ' '] := by
  intro c hc
  simp only [List.mem_cons, List.not_mem_nil, or_false] at hc
  rcases hc with h | h <;> (subst h; decide)

theorem wsOnly_nil : WsOnly [] := by
  intro c hc
  exact absurd hc (List.not_mem_nil c)

/-! ## Evaluation of the sample document -/

theorem sample_normal : normalJson sampleJSON = true := by
  simp [sampleJSON, normalJson, normalItems, normalFields, numNormal]

theorem sample_parse : parseJSON (stringifyPretty sampleJSON) = .ok sampleJSON := by
  rw [stringifyPretty]
  exact parseJSON_stringify sample_normal wsOnly_two_spaces

theorem sample_trim : trimJs (stringifyPretty sampleJSON) = stringifyPretty sampleJSON := by
  obtain ⟨c0, t0, h0, h0w⟩ := stringify_head_nojsws [' ', ' '] [] sampleJSON
  obtain ⟨tl, cl, hl, hlw⟩ := stringify_last_nojsws [' ', ' '] [] sampleJSON
  exact trimJs_eq_self (by rw [stringifyPretty]; exact h0) h0w
    (by rw [stringifyPretty]; exact hl) hlw

theorem sample_text_ne_nil : stringifyPretty sampleJSON ≠ [] := by
  obtain ⟨c0, t0, h0, _⟩ := stringify_head_nojsws [' ', ' '] [] sampleJSON
  rw [stringifyPretty, h0]
  simp

theorem sample_validate : validateJSON (stringifyPretty sampleJSON) =
    { stored := stringifyPretty sampleJSON,
      byteSize := blobSize (stringifyPretty sampleJSON),
      lineCount := countCh '\n' (stringifyPretty sampleJSON) + 1,
      outcome := .valid sampleJSON, isValidJSON := true, jsonData := sampleJSON } := by
  simp only [validateJSON, updateStatistics, sample_trim, sample_parse,
    if_neg sample_text_ne_nil]

theorem sample_counts : analyzeJSON sampleJSON = (6, 2) := by
  simp [analyzeJSON, sampleJSON, traverse, traverseItems, traverseFields]

/-! ## The claims -/

/-- C1: for every JSON value `v` the parser itself can produce — any `v`
with `parseJSON s = .ok v` — re-parsing the serialization used by
`formatJSON` and the one used by `minifyJSON` each returns exactly `v`,
deep structural equality and key order included (`Json` equality is
structural and objects keep their field order). -/
theorem C1_roundtrip {s : List Char} {v : Json} (h : parseJSON s = .ok v) :
    parseJSON (stringifyPretty v) = .ok v ∧ parseJSON (stringifyCompact v) = .ok v := by
  have hnorm := parseJSON_normal h
  constructor
  · rw [stringifyPretty]
    exact parseJSON_stringify hnorm wsOnly_two_spaces
  · rw [stringifyCompact]
    exact parseJSON_stringify hnorm wsOnly_nil

theorem C1_roundtrip_witness :
    parseJSON ['1'] = .ok (.num 1 0) ∧
    parseJSON (stringifyPretty (.num 1 0)) = .ok (.num 1 0) ∧
    parseJSON (stringifyCompact (.num 1 0)) = .ok (.num 1 0) :=
  ⟨eval_parse_one, (C1_roundtrip eval_parse_one).1, (C1_roundtrip eval_parse_one).2⟩

/-- C2 counterexample: loading the built-in sample document does yield a
Valid outcome on the sample value, but its analyze stats are six objects
(root, address, socialMedia and the three entries of `skills`), not
three, so the claimed `objectCount = 3` is wrong. -/
theorem C2_counterexample :
    loadSampleJSON.1.isValidJSON = true ∧ loadSampleJSON.1.jsonData = sampleJSON ∧
    analyzeJSON sampleJSON ≠ (3, 2) := by
  refine ⟨?_, ?_, ?_⟩
  · simp [loadSampleJSON, applyValidate, sample_validate]
  · simp [loadSampleJSON, applyValidate, sample_validate]
  · rw [sample_counts]
    decide

/-- C2 amended: loading the built-in sample document always yields a
Valid outcome with objectCount = 6 (root, address, socialMedia, and the
three objects inside the `skills` array) and arrayCount = 2 (hobbies and
skills). -/
theorem C2_sample_counts :
    loadSampleJSON.1.isValidJSON = true ∧ loadSampleJSON.1.jsonData = sampleJSON ∧
    (validateJSON (stringifyPretty sampleJSON)).outcome = .valid sampleJSON ∧
    analyzeJSON sampleJSON = (6, 2) := by
  refine ⟨?_, ?_, by rw [sample_validate], sample_counts⟩
  · simp [loadSampleJSON, applyValidate, sample_validate]
  · simp [loadSampleJSON, applyValidate, sample_validate]

/-- C3: `validateJSON` classifies three ways — whitespace-only input is
the distinct Empty state, parseable input is Valid with the parsed
value, unparseable input is Invalid with the non-empty display message
built from the parser's error. -/
theorem C3_three_way_classifier (raw : List Char) :
    (trimJs raw = [] →
      (validateJSON raw).outcome = .empty ∧ (validateJSON raw).isValidJSON = false) ∧
    (∀ v, trimJs raw ≠ [] → parseJSON (trimJs raw) = .ok v →
      (validateJSON raw).outcome = .valid v) ∧
    (∀ e, trimJs raw ≠ [] → parseJSON (trimJs raw) = .error e →
      (validateJSON raw).outcome = .invalid (formatErrMsg e) ∧ formatErrMsg e ≠ "") := by
  refine ⟨fun he => ?_, fun v hne hv => ?_, fun e hne hee => ?_⟩
  · simp [validateJSON, he]
  · simp [validateJSON, hne, hv]
  · refine ⟨by simp [validateJSON, hne, hee], ?_⟩
    intro hcon
    rw [formatErrMsg] at hcon
    have h0 : String.length "" = 0 := rfl
    split at hcon <;>
      (have hlen := congrArg String.length hcon
       rw [String.length_append] at hlen
       first
         | (have hpos : 0 < String.length "❌ Syntax Error: " := by decide
            omega)
         | (have hpos : 0 < String.length "❌ Invalid JSON: " := by decide
            omega))

theorem C3_three_way_witness :
    ((validateJSON []).outcome = .empty ∧ (validateJSON []).isValidJSON = false) ∧
    (validateJSON ['1']).outcome = .valid (.num 1 0) ∧
    ((validateJSON ['\x7b']).outcome =
        .invalid (formatErrMsg "Expected a double-quoted property name") ∧
      formatErrMsg "Expected a double-quoted property name" ≠ "") :=
  ⟨(C3_three_way_classifier []).1 rfl,
   (C3_three_way_classifier ['1']).2.1 (.num 1 0) (by decide) eval_parse_one,
   (C3_three_way_classifier ['\x7b']).2.2 "Expected a double-quoted property name"
     (by decide) eval_parse_lbrace⟩

/-! ## The reference structural count of the spec -/

mutual

/-- Modelled from the spec: the reference recursive object count — every
keyed (map-like) node adds one and the count recurses into its values,
arrays recurse into their elements, scalars count nothing. -/
def refObjects : Json → Nat
  | .obj fs => 1 + refObjectsFields fs
  | .arr vs => refObjectsItems vs
  | _ => 0

def refObjectsItems : List Json → Nat
  | [] => 0
  | v :: vs => refObjects v + refObjectsItems vs

def refObjectsFields : List (List Char × Json) → Nat
  | [] => 0
  | kv :: fs => refObjects kv.2 + refObjectsFields fs

end

mutual

/-- Modelled from the spec: the reference recursive array count — every
array node adds one and the count recurses into its elements, keyed
nodes recurse into their values, scalars count nothing. -/
def refArrays : Json → Nat
  | .arr vs => 1 + refArraysItems vs
  | .obj fs => refArraysFields fs
  | _ => 0

def refArraysItems : List Json → Nat
  | [] => 0
  | v :: vs => refArrays v + refArraysItems vs

def refArraysFields : List (List Char × Json) → Nat
  | [] => 0
  | kv :: fs => refArrays kv.2 + refArraysFields fs

end

theorem traverse_counts : ∀ v : Json, ∀ st : Nat × Nat,
    traverse st v = (st.1 + refObjects v, st.2 + refArrays v) := by
  have hitems : ∀ (l : List Json),
      (∀ v ∈ l, ∀ st : Nat × Nat, traverse st v = (st.1 + refObjects v, st.2 + refArrays v)) →
      ∀ st : Nat × Nat,
        traverseItems st l = (st.1 + refObjectsItems l, st.2 + refArraysItems l) := by
    intro l
    induction l with
    | nil => intro _ st; simp [traverseItems, refObjectsItems, refArraysItems]
    | cons v vs ihl =>
      intro hmem st
      rw [traverseItems, hmem v (by simp), ihl (fun u hu => hmem u (by simp [hu]))]
      simp only [refObjectsItems, refArraysItems, Prod.mk.injEq]
      omega
  have hfields : ∀ (l : List (List Char × Json)),
      (∀ kv ∈ l, ∀ st : Nat × Nat,
        traverse st kv.2 = (st.1 + refObjects kv.2, st.2 + refArrays kv.2)) →
      ∀ st : Nat × Nat,
        traverseFields st l = (st.1 + refObjectsFields l, st.2 + refArraysFields l) := by
    intro l
    induction l with
    | nil => intro _ st; simp [traverseFields, refObjectsFields, refArraysFields]
    | cons kv fs ihl =>
      intro hmem st
      rw [traverseFields, hmem kv (by simp), ihl (fun u hu => hmem u (by simp [hu]))]
      simp only [refObjectsFields, refArraysFields, Prod.mk.injEq]
      omega
  intro v
  induction v using Json.recMem with
  | hnull => intro st; simp [traverse, refObjects, refArrays]
  | hbool b => intro st; simp [traverse, refObjects, refArrays]
  | hnum m d => intro st; simp [traverse, refObjects, refArrays]
  | hstr s => intro st; simp [traverse, refObjects, refArrays]
  | harr vs ih =>
    intro st
    rw [traverse, hitems vs ih (st.1, st.2 + 1)]
    simp only [refObjects, refArrays, Prod.mk.injEq, true_and, and_true]
    omega
  | hobj fs ih =>
    intro st
    rw [traverse, hfields fs ih (st.1 + 1, st.2)]
    simp only [refObjects, refArrays, Prod.mk.injEq, true_and, and_true]
    omega

/-- C6: for every finite parsed JSON value, `analyzeJSON` returns
exactly the reference recursive counts — one per keyed node for
objectCount, one per array node for arrayCount, nothing for scalars. -/
theorem C6_analyze_reference (v : Json) :
    analyzeJSON v = (refObjects v, refArrays v) := by
  rw [analyzeJSON, traverse_counts]
  simp

/-- C7 counterexample: `validateJSON` persists the trimmed editor text,
not the raw text, and computes the byte size on the trimmed text — on
the raw input `"x "` the stored text and byte size differ from the
claim. -/
theorem C7_counterexample :
    (validateJSON ('x' :: [' '])).stored ≠ 'x' :: [' '] ∧
    (validateJSON ('x' :: [' '])).byteSize ≠ blobSize ('x' :: [' ']) := by
  have ht : trimJs ('x' :: [' ']) = ['x'] := by decide
  constructor
  · simp [validateJSON, ht, eval_parse_x]
  · simp [validateJSON, ht, eval_parse_x, updateStatistics, blobSize, utf8CharLen]

/-- C7 amended: every call to `validateJSON`, regardless of outcome,
persists the TRIMMED input text and computes byteSize as the UTF-8 byte
length of that trimmed text and lineCount as its line-break-separated
segment count, zero for empty trimmed text. -/
theorem C7_stats_on_trimmed (raw : List Char) :
    (validateJSON raw).stored = trimJs raw ∧
    (validateJSON raw).byteSize = blobSize (trimJs raw) ∧
    (validateJSON raw).lineCount =
      (if trimJs raw = [] then 0 else countCh '\n' (trimJs raw) + 1) := by
  rw [validateJSON]
  simp only [updateStatistics]
  split
  · next h => simp [h]
  · next h => split <;> simp [h]

/-- C9: invoking `formatJSON` or `minifyJSON` with the validity flag
down returns the state unchanged (document included) and reports the
usage error "Please enter valid JSON first!". -/
theorem C9_no_valid_document (st : EditorState) (h : st.isValidJSON = false) :
    formatJSON st = (st, ⟨"Please enter valid JSON first!", .error⟩) ∧
    minifyJSON st = (st, ⟨"Please enter valid JSON first!", .error⟩) := by
  constructor
  · rw [formatJSON, if_pos (by rw [h]; rfl)]
  · rw [minifyJSON, if_pos (by rw [h]; rfl)]

theorem C9_no_valid_document_witness :
    formatJSON ⟨[], false, .null⟩ =
      (⟨[], false, .null⟩, ⟨"Please enter valid JSON first!", .error⟩) ∧
    minifyJSON ⟨[], false, .null⟩ =
      (⟨[], false, .null⟩, ⟨"Please enter valid JSON first!", .error⟩) :=
  C9_no_valid_document ⟨[], false, .null⟩ rfl

/-- C10: the guard of `formatJSON`/`minifyJSON` tests the truthiness of
the stored parsed value, not the validity flag alone: for a valid state
the precondition-error branch (unchanged state, "Please enter valid
JSON first!") is taken exactly when the parsed value is falsy, the
falsy parsed values are exactly `null`, `false`, `0` and the empty
string, and such states do arise from validating a valid document
(`"null"`). -/
theorem C10_truthiness_guard :
    (∀ v : Json, jsTruthy v = false ↔
      (v = .null ∨ v = .bool false ∨ (∃ d, v = .num 0 d) ∨ v = .str [])) ∧
    (∀ st : EditorState, st.isValidJSON = true →
      (((formatJSON st).1 = st ∧
        (formatJSON st).2 = ⟨"Please enter valid JSON first!", .error⟩ ∧
        (minifyJSON st).1 = st ∧
        (minifyJSON st).2 = ⟨"Please enter valid JSON first!", .error⟩) ↔
        jsTruthy st.jsonData = false)) ∧
    ((validateJSON ('n' :: 'u' :: 'l' :: ['l'])).isValidJSON = true ∧
      jsTruthy (validateJSON ('n' :: 'u' :: 'l' :: ['l'])).jsonData = false) := by
  have htrim : trimJs ('n' :: 'u' :: 'l' :: ['l']) = 'n' :: 'u' :: 'l' :: ['l'] := by decide
  refine ⟨?_, ?_, ?_⟩
  · intro v
    cases v with
    | null => simp [jsTruthy]
    | bool b => cases b <;> simp [jsTruthy]
    | num m d => simp [jsTruthy]
    | str s => simp [jsTruthy]
    | arr vs => simp [jsTruthy]
    | obj fs => simp [jsTruthy]
  · intro st hv
    constructor
    · intro hg
      by_contra ht
      rw [Bool.not_eq_false] at ht
      have h2 := hg.2.1
      rw [formatJSON, if_neg (by simp [hv, ht])] at h2
      exact absurd (congrArg Notif.kind h2) (by simp)
    · intro hf
      have hcond : (!st.isValidJSON || !jsTruthy st.jsonData) = true := by
        rw [hv, hf]
        rfl
      refine ⟨?_, ?_, ?_, ?_⟩
      · rw [formatJSON, if_pos hcond]
      · rw [formatJSON, if_pos hcond]
      · rw [minifyJSON, if_pos hcond]
      · rw [minifyJSON, if_pos hcond]
  · constructor
    · simp [validateJSON, htrim, eval_parse_null]
    · simp [validateJSON, htrim, eval_parse_null, jsTruthy]

theorem C10_truthiness_guard_witness :
    (formatJSON ⟨'n' :: 'u' :: 'l' :: ['l'], true, .null⟩).1 =
      ⟨'n' :: 'u' :: 'l' :: ['l'], true, .null⟩ ∧
    jsTruthy Json.null = false :=
  ⟨((C10_truthiness_guard.2.1 ⟨'n' :: 'u' :: 'l' :: ['l'], true, .null⟩ rfl).mpr rfl).1,
   (C10_truthiness_guard.1 Json.null).mpr (Or.inl rfl)⟩

/-! ## The reference serializations of the spec -/

/-- Two spaces of indentation per nesting level. -/
def indentOf (level : Nat) : List Char :=
  List.replicate (2 * level) ' '

mutual

/-- Modelled from the spec: serialization with a fixed indentation of
two spaces per nesting level, object keys in their original parse order
and array elements in their original order — the standard JSON pretty
layout: every element on its own line one level deeper, a space after
each key's colon, closing bracket back on the enclosing level. -/
def refPretty (level : Nat) : Json → List Char
  | .null => litNull
  | .bool true => litTrue
  | .bool false => litFalse
  | .num m d => numToChars m d
  | .str s => quoteStr s
  | .arr [] => ['[', ']']
  | .arr (v :: vs) =>
    '[' :: '\n' :: (indentOf (level + 1) ++ refPrettyItems (level + 1) (v :: vs) ++
      '\n' :: (indentOf level ++ [']']))
  | .obj [] => ['\x7b', '\x7d']
  | .obj (kv :: fs) =>
    '\x7b' :: '\n' :: (indentOf (level + 1) ++ refPrettyFields (level + 1) (kv :: fs) ++
      '\n' :: (indentOf level ++ ['\x7d']))

def refPrettyItems (level : Nat) : List Json → List Char
  | [] => []
  | [v] => refPretty level v
  | v :: vs =>
    refPretty level v ++ ',' :: '\n' :: (indentOf level ++ refPrettyItems level vs)

def refPrettyFields (level : Nat) : List (List Char × Json) → List Char
  | [] => []
  | [kv] => quoteStr kv.1 ++ ':' :: ' ' :: refPretty level kv.2
  | kv :: fs =>
    quoteStr kv.1 ++ ':' :: ' ' :: refPretty level kv.2 ++
      ',' :: '\n' :: (indentOf level ++ refPrettyFields level fs)

end

mutual

/-- Modelled from the spec: serialization with no insignificant
whitespace at all, same ordering rules as the pretty form. -/
def refCompact : Json → List Char
  | .null => litNull
  | .bool true => litTrue
  | .bool false => litFalse
  | .num m d => numToChars m d
  | .str s => quoteStr s
  | .arr [] => ['[', ']']
  | .arr (v :: vs) => '[' :: (refCompactItems (v :: vs) ++ [']'])
  | .obj [] => ['\x7b', '\x7d']
  | .obj (kv :: fs) => '\x7b' :: (refCompactFields (kv :: fs) ++ ['\x7d'])

def refCompactItems : List Json → List Char
  | [] => []
  | [v] => refCompact v
  | v :: vs => refCompact v ++ ',' :: refCompactItems vs

def refCompactFields : List (List Char × Json) → List Char
  | [] => []
  | [kv] => quoteStr kv.1 ++ ':' :: refCompact kv.2
  | kv :: fs => quoteStr kv.1 ++ ':' :: refCompact kv.2 ++ ',' :: refCompactFields fs

end

theorem indentOf_succ (level : Nat) : indentOf level ++ [' ', ' '] = indentOf (level + 1) := by
  rw [indentOf, indentOf, show 2 * (level + 1) = 2 * level + 2 from by ring,
    List.replicate_add]
  rfl

theorem stringify_two_eq_refPretty : ∀ v : Json, ∀ level : Nat,
    stringify [' ', ' '] (indentOf level) v = refPretty level v := by
  have hitems : ∀ (l : List Json),
      (∀ v ∈ l, ∀ level, stringify [' ', ' '] (indentOf level) v = refPretty level v) →
      ∀ level, stringifyItems [' ', ' '] (indentOf level) l = refPrettyItems level l := by
    intro l
    induction l with
    | nil => intro _ level; rfl
    | cons v vs ihl =>
      intro hmem level
      cases vs with
      | nil =>
        simp only [stringifyItems, refPrettyItems]
        exact hmem v (by simp) level
      | cons w ws =>
        simp only [stringifyItems, refPrettyItems]
        rw [hmem v (by simp) level, ihl (fun u hu => hmem u (by simp [hu])) level, brNl]
        simp [List.append_assoc]
  have hfields : ∀ (l : List (List Char × Json)),
      (∀ kv ∈ l, ∀ level, stringify [' ', ' '] (indentOf level) kv.2 = refPretty level kv.2) →
      ∀ level, stringifyFields [' ', ' '] (indentOf level) l = refPrettyFields level l := by
    intro l
    induction l with
    | nil => intro _ level; rfl
    | cons kv fs ihl =>
      intro hmem level
      cases fs with
      | nil =>
        simp only [stringifyFields, refPrettyFields]
        rw [hmem kv (by simp) level]
        simp
      | cons kw kws =>
        simp only [stringifyFields, refPrettyFields]
        rw [hmem kv (by simp) level, ihl (fun u hu => hmem u (by simp [hu])) level, brNl]
        simp [List.append_assoc]
  intro v
  induction v using Json.recMem with
  | hnull => intro level; rfl
  | hbool b => intro level; cases b <;> rfl
  | hnum m d => intro level; rfl
  | hstr s => intro level; rfl
  | harr vs ih =>
    intro level
    cases vs with
    | nil => rfl
    | cons w ws =>
      simp only [stringify, refPretty]
      rw [indentOf_succ, hitems (w :: ws) ih (level + 1), brNl, brNl]
      simp [List.append_assoc]
  | hobj fs ih =>
    intro level
    cases fs with
    | nil => rfl
    | cons kv kvs =>
      simp only [stringify, refPretty]
      rw [indentOf_succ, hfields (kv :: kvs) ih (level + 1), brNl, brNl]
      simp [List.append_assoc]

theorem stringify_nil_eq_refCompact : ∀ v : Json, ∀ indent : List Char,
    stringify [] indent v = refCompact v := by
  have hitems : ∀ (l : List Json),
      (∀ v ∈ l, ∀ indent, stringify [] indent v = refCompact v) →
      ∀ indent, stringifyItems [] indent l = refCompactItems l := by
    intro l
    induction l with
    | nil => intro _ indent; rfl
    | cons v vs ihl =>
      intro hmem indent
      cases vs with
      | nil =>
        simp only [stringifyItems, refCompactItems]
        exact hmem v (by simp) indent
      | cons w ws =>
        simp only [stringifyItems, refCompactItems]
        rw [hmem v (by simp) indent, ihl (fun u hu => hmem u (by simp [hu])) indent, brNl]
        simp
  have hfields : ∀ (l : List (List Char × Json)),
      (∀ kv ∈ l, ∀ indent, stringify [] indent kv.2 = refCompact kv.2) →
      ∀ indent, stringifyFields [] indent l = refCompactFields l := by
    intro l
    induction l with
    | nil => intro _ indent; rfl
    | cons kv fs ihl =>
      intro hmem indent
      cases fs with
      | nil =>
        simp only [stringifyFields, refCompactFields]
        rw [hmem kv (by simp) indent]
        simp
      | cons kw kws =>
        simp only [stringifyFields, refCompactFields]
        rw [hmem kv (by simp) indent, ihl (fun u hu => hmem u (by simp [hu])) indent, brNl]
        simp
  intro v
  induction v using Json.recMem with
  | hnull => intro indent; rfl
  | hbool b => intro indent; cases b <;> rfl
  | hnum m d => intro indent; rfl
  | hstr s => intro indent; rfl
  | harr vs ih =>
    intro indent
    cases vs with
    | nil => rfl
    | cons w ws =>
      simp only [stringify, refCompact]
      rw [hitems (w :: ws) ih (indent ++ [])]
      simp [brNl]
  | hobj fs ih =>
    intro indent
    cases fs with
    | nil => rfl
    | cons kv kvs =>
      simp only [stringify, refCompact]
      rw [hfields (kv :: kvs) ih (indent ++ [])]
      simp [brNl]

/-- C8: `formatJSON`'s serialization is exactly the reference
two-space-per-level pretty layout with keys and elements in original
order, and `minifyJSON`'s serialization is exactly the reference
all-whitespace-free layout under the same ordering. -/
theorem C8_fixed_layouts (v : Json) :
    stringifyPretty v = refPretty 0 v ∧ stringifyCompact v = refCompact v := by
  constructor
  · rw [stringifyPretty, show ([] : List Char) = indentOf 0 from rfl]
    exact stringify_two_eq_refPretty v 0
  · rw [stringifyCompact]
    exact stringify_nil_eq_refCompact v []

/-! ## Adjacent-pair predicates on texts -/

/-- Every adjacent pair of characters satisfies `R`. -/
def pairsOK (R : Char → Char → Bool) : List Char → Bool
  | [] => true
  | [_] => true
  | c :: d :: t => R c d && pairsOK R (d :: t)

/-- Every whitespace character is a plain space. -/
def wsIsSpace (cs : List Char) : Bool :=
  cs.all (fun c => !isJsWs c || c == ' ')

/-- No two adjacent whitespace characters. -/
def noWsWs (cs : List Char) : Bool :=
  pairsOK (fun c d => !(isJsWs c && isJsWs d)) cs

/-- No whitespace character adjacent to a structural character. -/
def noWsStruct (cs : List Char) : Bool :=
  pairsOK (fun c d => !((isJsWs c && isStructCh d) || (isStructCh c && isJsWs d))) cs

theorem pairsOK_tail {R : Char → Char → Bool} {c : Char} {t : List Char}
    (h : pairsOK R (c :: t) = true) : pairsOK R t = true := by
  cases t with
  | nil => rfl
  | cons d u =>
    simp only [pairsOK, Bool.and_eq_true] at h
    exact h.2

theorem pairsOK_suffix {R : Char → Char → Bool} :
    ∀ (a b : List Char), pairsOK R (a ++ b) = true → pairsOK R b = true := by
  intro a
  induction a with
  | nil => intro b h; exact h
  | cons x xs ih =>
    intro b h
    exact ih b (pairsOK_tail h)

theorem pairsOK_prefix {R : Char → Char → Bool} :
    ∀ (a b : List Char), pairsOK R (a ++ b) = true → pairsOK R a = true := by
  intro a
  induction a with
  | nil => intro b _; rfl
  | cons x xs ih =>
    intro b h
    cases xs with
    | nil => rfl
    | cons y ys =>
      simp only [List.cons_append, pairsOK, Bool.and_eq_true] at h ⊢
      exact ⟨h.1, ih b h.2⟩

theorem pairsOK_glue {R : Char → Char → Bool} :
    ∀ (a b : List Char), pairsOK R a = true → pairsOK R b = true →
    (∀ x y, a.getLast? = some x → b.head? = some y → R x y = true) →
    pairsOK R (a ++ b) = true := by
  intro a
  induction a with
  | nil => intro b _ hb _; exact hb
  | cons x xs ih =>
    intro b ha hb hj
    cases xs with
    | nil =>
      cases b with
      | nil => rfl
      | cons y u =>
        simp only [List.singleton_append, pairsOK, Bool.and_eq_true]
        exact ⟨hj x y rfl rfl, hb⟩
    | cons z zs =>
      simp only [List.cons_append, pairsOK, Bool.and_eq_true] at ha ⊢
      refine ⟨ha.1, ?_⟩
      exact ih b ha.2 hb (fun p q hp hq => hj p q (by rw [List.getLast?_cons_cons]; exact hp) hq)

theorem pairsOK_junction {R : Char → Char → Bool} :
    ∀ (a b : List Char) {x y : Char}, pairsOK R (a ++ b) = true →
    a.getLast? = some x → b.head? = some y → R x y = true := by
  intro a
  induction a with
  | nil => intro b x y _ hx _; simp at hx
  | cons z zs ih =>
    intro b x y h hx hy
    cases zs with
    | nil =>
      simp only [List.getLast?_singleton, Option.some.injEq] at hx
      subst hx
      cases b with
      | nil => simp at hy
      | cons w u =>
        simp only [List.head?_cons, Option.some.injEq] at hy
        subst hy
        simp only [List.singleton_append, pairsOK, Bool.and_eq_true] at h
        exact h.1
    | cons w ws =>
      rw [List.getLast?_cons_cons] at hx
      exact ih b (pairsOK_tail h) hx hy

theorem pairsOK_of_mem {R : Char → Char → Bool} :
    ∀ (a : List Char), (∀ x ∈ a, ∀ y ∈ a, R x y = true) → pairsOK R a = true := by
  intro a
  induction a with
  | nil => intro _; rfl
  | cons x xs ih =>
    intro hmem
    cases xs with
    | nil => rfl
    | cons y ys =>
      simp only [pairsOK, Bool.and_eq_true]
      refine ⟨hmem x (by simp) y (by simp), ?_⟩
      exact ih (fun p hp q hq => hmem p (by simp [hp]) q (by simp [hq]))

/-- A structural character is never whitespace. -/
theorem isStructCh_not_ws {c : Char} (h : isStructCh c = true) : isJsWs c = false := by
  simp only [isStructCh, Bool.or_eq_true, decide_eq_true_eq] at h
  rcases h with ((((e | e) | e) | e) | e) | e <;> (subst e; decide)

theorem head_dropWhile_not {p : Char → Bool} :
    ∀ (l : List Char) {c : Char}, (l.dropWhile p).head? = some c → p c = false := by
  intro l
  induction l with
  | nil => intro c h; simp [List.dropWhile] at h
  | cons a as ih =>
    intro c h
    rw [List.dropWhile_cons] at h
    by_cases hp : p a = true
    · rw [if_pos hp] at h
      exact ih h
    · rw [if_neg hp] at h
      simp only [List.head?_cons, Option.some.injEq] at h
      subst h
      exact Bool.not_eq_true _ ▸ eq_false_of_ne_true hp

/-! ## The collapse pass -/

theorem collapseGo_true_head : ∀ (cs : List Char) {d : Char} {u : List Char},
    collapseGo true cs = d :: u → isJsWs d = false := by
  intro cs
  induction cs with
  | nil => intro d u h; simp [collapseGo] at h
  | cons c rest ih =>
    intro d u h
    by_cases hc : isJsWs c = true
    · rw [show collapseGo true (c :: rest) = collapseGo true rest from by
        simp [collapseGo, hc]] at h
      exact ih h
    · rw [show collapseGo true (c :: rest) = c :: collapseGo false rest from by
        simp [collapseGo, hc]] at h
      injection h with h1 h2
      rw [← h1]
      exact eq_false_of_ne_true hc

theorem collapse_spaces : ∀ (cs : List Char) (flag : Bool),
    wsIsSpace (collapseGo flag cs) = true ∧ noWsWs (collapseGo flag cs) = true := by
  intro cs
  induction cs with
  | nil => intro flag; constructor <;> simp [collapseGo, wsIsSpace, noWsWs, pairsOK]
  | cons c rest ih =>
    intro flag
    by_cases hc : isJsWs c = true
    · cases flag with
      | true =>
        rw [show collapseGo true (c :: rest) = collapseGo true rest from by
          simp [collapseGo, hc]]
        exact ih true
      | false =>
        rw [show collapseGo false (c :: rest) = ' ' :: collapseGo true rest from by
          simp [collapseGo, hc]]
        obtain ⟨ih1, ih2⟩ := ih true
        constructor
        · simp only [wsIsSpace, List.all_cons] at ih1 ⊢
          rw [ih1]
          simp
        · rcases hout : collapseGo true rest with _ | ⟨d, u⟩
          · simp [noWsWs, pairsOK]
          · have hd := collapseGo_true_head rest hout
            rw [hout] at ih2
            simp only [noWsWs, pairsOK, Bool.and_eq_true]
            exact ⟨by simp [hd], ih2⟩
    · rw [show collapseGo flag (c :: rest) = c :: collapseGo false rest from by
        simp [collapseGo, hc]]
      obtain ⟨ih1, ih2⟩ := ih false
      have hcf : isJsWs c = false := eq_false_of_ne_true hc
      constructor
      · simp only [wsIsSpace, List.all_cons] at ih1 ⊢
        rw [ih1]
        simp [hcf]
      · rcases hout : collapseGo false rest with _ | ⟨d, u⟩
        · simp [noWsWs, pairsOK]
        · rw [hout] at ih2
          simp only [noWsWs, pairsOK, Bool.and_eq_true]
          exact ⟨by simp [hcf], ih2⟩

theorem collapse_fix : ∀ (cs : List Char),
    wsIsSpace cs = true → noWsWs cs = true →
    collapseGo false cs = cs ∧ (HeadNot isJsWs cs → collapseGo true cs = cs) := by
  intro cs
  induction cs with
  | nil => intro _ _; exact ⟨by simp [collapseGo], fun _ => by simp [collapseGo]⟩
  | cons c rest ih =>
    intro h1 h2
    have h1t : wsIsSpace rest = true := by
      simp only [wsIsSpace, List.all_cons, Bool.and_eq_true] at h1
      exact h1.2
    obtain ⟨ihf, iht⟩ := ih h1t (pairsOK_tail h2)
    by_cases hc : isJsWs c = true
    · have hsp : c = ' ' := by
        simp only [wsIsSpace, List.all_cons, Bool.and_eq_true, Bool.or_eq_true] at h1
        rcases h1.1 with hb | hb
        · rw [hc] at hb
          exact absurd hb (by simp)
        · exact (beq_iff_eq ..).mp hb
      have hrest : HeadNot isJsWs rest := by
        cases rest with
        | nil => exact trivial
        | cons r rs =>
          simp only [noWsWs, pairsOK, Bool.and_eq_true] at h2
          have := h2.1
          rw [hc] at this
          simpa using this
      constructor
      · rw [show collapseGo false (c :: rest) = ' ' :: collapseGo true rest from by
          simp [collapseGo, hc], iht hrest, hsp]
      · intro hh
        rw [show HeadNot isJsWs (c :: rest) = (isJsWs c = false) from rfl] at hh
        rw [hc] at hh
        exact absurd hh (by simp)
    · have heq : ∀ flag, collapseGo flag (c :: rest) = c :: collapseGo false rest := by
        intro flag
        simp [collapseGo, hc]
      exact ⟨by rw [heq false, ihf], fun _ => by rw [heq true, ihf]⟩

/-! ## The strip pass -/

theorem ws_not_struct {c : Char} (h : isJsWs c = true) : isStructCh c = false := by
  cases hb : isStructCh c
  · rfl
  · rw [isStructCh_not_ws hb] at h
    exact absurd h (by simp)

theorem stripGo_true_head : ∀ (cs : List Char) {d : Char} {u : List Char},
    stripGo [] true cs = d :: u → isJsWs d = false := by
  intro cs
  induction cs with
  | nil => intro d u h; simp [stripGo] at h
  | cons c rest ih =>
    intro d u h
    by_cases hs : isStructCh c = true
    · rw [show stripGo [] true (c :: rest) = c :: stripGo [] true rest from by
        simp [stripGo, hs]] at h
      injection h with h1 h2
      rw [← h1]
      exact isStructCh_not_ws hs
    · by_cases hw : isJsWs c = true
      · rw [show stripGo [] true (c :: rest) = stripGo [] true rest from by
          simp [stripGo, hs, hw]] at h
        exact ih h
      · rw [show stripGo [] true (c :: rest) = c :: stripGo [] false rest from by
          simp [stripGo, hs, hw]] at h
        injection h with h1 h2
        rw [← h1]
        exact eq_false_of_ne_true hw

theorem stripGo_head_nonws {c : Char} (rest : List Char) (hc : isJsWs c = false) :
    ∃ u, stripGo [] false (c :: rest) = c :: u := by
  by_cases hs : isStructCh c = true
  · exact ⟨stripGo [] true rest, by simp [stripGo, hs]⟩
  · exact ⟨stripGo [] false rest, by simp [stripGo, hs, hc]⟩

theorem stripGo_sublist : ∀ (cs pending : List Char) (flag : Bool),
    List.Sublist (stripGo pending flag cs) (pending ++ cs) := by
  intro cs
  induction cs with
  | nil =>
    intro pending flag
    simp [stripGo]
  | cons c rest ih =>
    intro pending flag
    by_cases hs : isStructCh c = true
    · rw [show stripGo pending flag (c :: rest) = c :: stripGo [] true rest from by
        simp [stripGo, hs]]
      have h1 : List.Sublist (stripGo [] true rest) rest := by simpa using ih [] true
      exact (List.Sublist.cons₂ c h1).trans (List.sublist_append_right pending (c :: rest))
    · by_cases hw : isJsWs c = true
      · cases flag with
        | true =>
          rw [show stripGo pending true (c :: rest) = stripGo [] true rest from by
            simp [stripGo, hs, hw]]
          have h1 : List.Sublist (stripGo [] true rest) rest := by simpa using ih [] true
          exact (h1.trans (List.sublist_cons_self c rest)).trans
            (List.sublist_append_right pending (c :: rest))
        | false =>
          rw [show stripGo pending false (c :: rest) = stripGo (pending ++ [c]) false rest from by
            simp [stripGo, hs, hw]]
          have h1 := ih (pending ++ [c]) false
          simpa [List.append_assoc] using h1
      · rw [show stripGo pending flag (c :: rest) = pending ++ c :: stripGo [] false rest from by
          simp [stripGo, hs, hw]]
        have h1 : List.Sublist (stripGo [] false rest) rest := by simpa using ih [] false
        exact List.Sublist.append_left (List.Sublist.cons₂ c h1) pending

theorem stripGo_noWsStruct : ∀ (cs pending : List Char) (flag : Bool),
    (∀ x ∈ pending, isJsWs x = true) → (flag = true → pending = []) →
    noWsStruct (stripGo pending flag cs) = true := by
  intro cs
  induction cs with
  | nil =>
    intro pending flag hp _
    rw [show stripGo pending flag [] = pending from by simp [stripGo]]
    exact pairsOK_of_mem pending (fun x hx y hy => by
      simp [hp x hx, hp y hy, ws_not_struct (hp x hx), ws_not_struct (hp y hy)])
  | cons c rest ih =>
    intro pending flag hp hf
    by_cases hs : isStructCh c = true
    · rw [show stripGo pending flag (c :: rest) = c :: stripGo [] true rest from by
        simp [stripGo, hs]]
      have htail := ih [] true (by simp) (fun _ => rfl)
      rcases hout : stripGo [] true rest with _ | ⟨d, u⟩
      · simp [noWsStruct, pairsOK]
      · have hd := stripGo_true_head rest hout
        rw [hout] at htail
        simp only [noWsStruct, pairsOK, Bool.and_eq_true]
        exact ⟨by simp [hd, isStructCh_not_ws hs], htail⟩
    · by_cases hw : isJsWs c = true
      · cases flag with
        | true =>
          rw [show stripGo pending true (c :: rest) = stripGo [] true rest from by
            simp [stripGo, hs, hw]]
          exact ih [] true (by simp) (fun _ => rfl)
        | false =>
          rw [show stripGo pending false (c :: rest) = stripGo (pending ++ [c]) false rest from by
            simp [stripGo, hs, hw]]
          refine ih (pending ++ [c]) false (fun x hx => ?_) (by simp)
          rcases List.mem_append.mp hx with h | h
          · exact hp x h
          · simp only [List.mem_singleton] at h
            rw [h]
            exact hw
      · rw [show stripGo pending flag (c :: rest) = pending ++ c :: stripGo [] false rest from by
          simp [stripGo, hs, hw]]
        have hcf : isJsWs c = false := eq_false_of_ne_true hw
        have hcs : isStructCh c = false := eq_false_of_ne_true hs
        have htail := ih [] false (by simp) (by simp)
        refine pairsOK_glue pending (c :: stripGo [] false rest) ?_ ?_ ?_
        · exact pairsOK_of_mem pending (fun x hx y hy => by
            simp [hp x hx, hp y hy, ws_not_struct (hp x hx), ws_not_struct (hp y hy)])
        · rcases hout : stripGo [] false rest with _ | ⟨d, u⟩
          · simp [pairsOK]
          · rw [hout] at htail
            simp only [noWsStruct, pairsOK, Bool.and_eq_true] at htail ⊢
            exact ⟨by simp [hcf, hcs], htail⟩
        · intro x y hx hy
          have hxw : isJsWs x = true := hp x (List.mem_of_mem_getLast? hx)
          simp only [List.head?_cons, Option.some.injEq] at hy
          rw [← hy]
          simp [hxw, ws_not_struct hxw, hcs]

theorem stripGo_noWsWs : ∀ (cs pending : List Char) (flag : Bool),
    noWsWs (pending ++ cs) = true →
    noWsWs (stripGo pending flag cs) = true := by
  intro cs
  induction cs with
  | nil =>
    intro pending flag h
    rw [show stripGo pending flag [] = pending from by simp [stripGo]]
    simpa using h
  | cons c rest ih =>
    intro pending flag h
    by_cases hs : isStructCh c = true
    · rw [show stripGo pending flag (c :: rest) = c :: stripGo [] true rest from by
        simp [stripGo, hs]]
      have htail := ih [] true (pairsOK_tail (pairsOK_suffix pending (c :: rest) h))
      rcases hout : stripGo [] true rest with _ | ⟨d, u⟩
      · simp [noWsWs, pairsOK]
      · rw [hout] at htail
        simp only [noWsWs, pairsOK, Bool.and_eq_true]
        exact ⟨by simp [isStructCh_not_ws hs], htail⟩
    · by_cases hw : isJsWs c = true
      · cases flag with
        | true =>
          rw [show stripGo pending true (c :: rest) = stripGo [] true rest from by
            simp [stripGo, hs, hw]]
          exact ih [] true (pairsOK_tail (pairsOK_suffix pending (c :: rest) h))
        | false =>
          rw [show stripGo pending false (c :: rest) = stripGo (pending ++ [c]) false rest from by
            simp [stripGo, hs, hw]]
          refine ih (pending ++ [c]) false ?_
          simpa [List.append_assoc] using h
      · rw [show stripGo pending flag (c :: rest) = pending ++ c :: stripGo [] false rest from by
          simp [stripGo, hs, hw]]
        have hcf : isJsWs c = false := eq_false_of_ne_true hw
        have htail := ih [] false (pairsOK_tail (pairsOK_suffix pending (c :: rest) h))
        refine pairsOK_glue pending (c :: stripGo [] false rest) ?_ ?_ ?_
        · exact pairsOK_prefix pending (c :: rest) h
        · rcases hout : stripGo [] false rest with _ | ⟨d, u⟩
          · simp [pairsOK]
          · rw [hout] at htail
            simp only [noWsWs, pairsOK, Bool.and_eq_true] at htail ⊢
            exact ⟨by simp [hcf], htail⟩
        · intro x y hx hy
          simp only [List.head?_cons, Option.some.injEq] at hy
          rw [← hy]
          simp [hcf]

theorem stripGo_true_eq_false {cs : List Char} (h : HeadNot isJsWs cs) :
    stripGo [] true cs = stripGo [] false cs := by
  cases cs with
  | nil => rfl
  | cons c rest =>
    have hcf : isJsWs c = false := h
    by_cases hs : isStructCh c = true
    · simp [stripGo, hs]
    · simp [stripGo, hs, hcf]

theorem stripGo_fix : ∀ (cs pending : List Char),
    (∀ x ∈ pending, isJsWs x = true) →
    noWsStruct (pending ++ cs) = true →
    stripGo pending false cs = pending ++ cs := by
  intro cs
  induction cs with
  | nil =>
    intro pending _ _
    simp [stripGo]
  | cons c rest ih =>
    intro pending hp h
    by_cases hs : isStructCh c = true
    · have hpnil : pending = [] := by
        cases hpc : pending with
        | nil => rfl
        | cons p ps =>
          obtain ⟨t0, x, hx1, hx2⟩ := concat_decomp (by rw [hpc]; simp :
            pending ≠ ([] : List Char))
          have hxw : isJsWs x = true := hp x hx2
          have hlast : pending.getLast? = some x := by
            rw [hx1]
            exact List.getLast?_concat t0
          have hj := pairsOK_junction pending (c :: rest) h hlast rfl
          rw [hs, hxw] at hj
          simp at hj
      subst hpnil
      rw [show stripGo [] false (c :: rest) = c :: stripGo [] true rest from by
        simp [stripGo, hs]]
      simp only [List.nil_append] at h
      have hrest : HeadNot isJsWs rest := by
        cases rest with
        | nil => exact trivial
        | cons r rs =>
          simp only [noWsStruct, pairsOK, Bool.and_eq_true] at h
          have := h.1
          rw [hs] at this
          cases hb : isJsWs r
          · exact hb
          · rw [hb] at this
            simp at this
      rw [stripGo_true_eq_false hrest, ih [] (by simp) (pairsOK_tail h)]
      simp
    · by_cases hw : isJsWs c = true
      · rw [show stripGo pending false (c :: rest) = stripGo (pending ++ [c]) false rest from by
          simp [stripGo, hs, hw]]
        have h2 : noWsStruct ((pending ++ [c]) ++ rest) = true := by
          simpa [List.append_assoc] using h
        rw [ih (pending ++ [c]) (fun x hx => by
          rcases List.mem_append.mp hx with hmem | hmem
          · exact hp x hmem
          · simp only [List.mem_singleton] at hmem
            rw [hmem]
            exact hw) h2]
        simp [List.append_assoc]
      · rw [show stripGo pending false (c :: rest) = pending ++ c :: stripGo [] false rest from by
          simp [stripGo, hs, hw]]
        rw [ih [] (by simp) (pairsOK_tail (pairsOK_suffix pending (c :: rest) h))]
        simp

/-! ## Trimming -/

theorem trimJs_last_not_ws {cs : List Char} {t : List Char} {c : Char}
    (h : trimJs cs = t ++ [c]) : isJsWs c = false := by
  rw [trimJs] at h
  have hB : (cs.dropWhile (fun x => isJsWs x)).reverse.dropWhile (fun x => isJsWs x) =
      c :: t.reverse := by
    have h2 := congrArg List.reverse h
    simpa using h2
  exact head_dropWhile_not _ (by rw [hB]; rfl)

theorem trimJs_head_not_ws {cs : List Char} {c : Char} {t : List Char}
    (h : trimJs cs = c :: t) : isJsWs c = false := by
  rw [trimJs] at h
  have hB : (cs.dropWhile (fun x => isJsWs x)).reverse.dropWhile (fun x => isJsWs x) =
      t.reverse ++ [c] := by
    have h2 := congrArg List.reverse h
    simpa using h2
  have h2 : (cs.dropWhile (fun x => isJsWs x)).reverse.takeWhile (fun x => isJsWs x) ++
      (cs.dropWhile (fun x => isJsWs x)).reverse.dropWhile (fun x => isJsWs x) =
      (cs.dropWhile (fun x => isJsWs x)).reverse := List.takeWhile_append_dropWhile _ _
  have h3 := congrArg List.reverse h2
  rw [List.reverse_append, List.reverse_reverse, hB] at h3
  rw [List.reverse_append] at h3
  simp only [List.reverse_cons, List.reverse_nil, List.nil_append, List.reverse_reverse,
    List.singleton_append] at h3
  exact head_dropWhile_not cs (by rw [← h3]; rfl)

theorem trimJs_decomp (cs : List Char) : ∃ a b, cs = a ++ trimJs cs ++ b := by
  refine ⟨cs.takeWhile (fun x => isJsWs x),
    ((cs.dropWhile (fun x => isJsWs x)).reverse.takeWhile (fun x => isJsWs x)).reverse, ?_⟩
  have h1 : cs.takeWhile (fun x => isJsWs x) ++ cs.dropWhile (fun x => isJsWs x) = cs :=
    List.takeWhile_append_dropWhile _ _
  have h2 : (cs.dropWhile (fun x => isJsWs x)).reverse.takeWhile (fun x => isJsWs x) ++
      (cs.dropWhile (fun x => isJsWs x)).reverse.dropWhile (fun x => isJsWs x) =
      (cs.dropWhile (fun x => isJsWs x)).reverse := List.takeWhile_append_dropWhile _ _
  have h3 := congrArg List.reverse h2
  rw [List.reverse_append, List.reverse_reverse] at h3
  conv_lhs => rw [← h1, ← h3]
  rw [trimJs]
  simp [List.append_assoc]

theorem trimJs_idem (cs : List Char) : trimJs (trimJs cs) = trimJs cs := by
  rcases hT : trimJs cs with _ | ⟨c, t⟩
  · rfl
  · obtain ⟨t2, c2, hl, _⟩ := concat_decomp (show c :: t ≠ [] by simp)
    exact trimJs_eq_self rfl (trimJs_head_not_ws hT) hl
      (trimJs_last_not_ws (show trimJs cs = t2 ++ [c2] by rw [hT, hl]))

theorem trimJs_ne_nil {c : Char} (u : List Char) (hc : isJsWs c = false) :
    trimJs (c :: u) ≠ [] := by
  rw [trimJs]
  intro hcon
  have h1 : (c :: u).dropWhile (fun x => isJsWs x) = c :: u := by
    rw [List.dropWhile_cons]
    simp [hc]
  rw [h1] at hcon
  have h2 := congrArg List.reverse hcon
  simp only [List.reverse_reverse, List.reverse_nil] at h2
  rw [List.dropWhile_eq_nil_iff] at h2
  have h3 := h2 c (by simp)
  rw [hc] at h3
  exact absurd h3 (by simp)

theorem all_of_sublist {p : Char → Bool} {a b : List Char} (hs : List.Sublist a b)
    (h : b.all p = true) : a.all p = true := by
  simp only [List.all_eq_true] at h ⊢
  exact fun x hx => h x (hs.subset hx)

theorem infix_sublist (a m b : List Char) : List.Sublist m (a ++ m ++ b) := by
  rw [List.append_assoc]
  exact (List.sublist_append_left m b).trans (List.sublist_append_right a (m ++ b))

theorem pairsOK_infix {R : Char → Char → Bool} {a m b : List Char}
    (h : pairsOK R (a ++ m ++ b) = true) : pairsOK R m = true := by
  rw [List.append_assoc] at h
  exact pairsOK_prefix m b (pairsOK_suffix a (m ++ b) h)

/-! ## Idempotence of the compress pipeline -/

theorem compress_pipeline_fix {c : Char} (t : List Char) (hc : isJsWs c = false) :
    trimJs (stripGo [] false (collapseGo false (c :: t))) ≠ [] ∧
    trimJs (stripGo [] false (collapseGo false
      (trimJs (stripGo [] false (collapseGo false (c :: t)))))) =
      trimJs (stripGo [] false (collapseGo false (c :: t))) := by
  have hz0 := collapse_spaces (c :: t) false
  have hz1ws : wsIsSpace (stripGo [] false (collapseGo false (c :: t))) = true :=
    all_of_sublist (by simpa using stripGo_sublist (collapseGo false (c :: t)) [] false) hz0.1
  have hz1nww : noWsWs (stripGo [] false (collapseGo false (c :: t))) = true :=
    stripGo_noWsWs (collapseGo false (c :: t)) [] false hz0.2
  have hz1nws : noWsStruct (stripGo [] false (collapseGo false (c :: t))) = true :=
    stripGo_noWsStruct (collapseGo false (c :: t)) [] false (by simp) (by simp)
  obtain ⟨a, b, hdec⟩ := trimJs_decomp (stripGo [] false (collapseGo false (c :: t)))
  have hyws : wsIsSpace (trimJs (stripGo [] false (collapseGo false (c :: t)))) = true := by
    refine all_of_sublist ?_ hz1ws
    conv_rhs => rw [hdec]
    exact infix_sublist a _ b
  have hynww : noWsWs (trimJs (stripGo [] false (collapseGo false (c :: t)))) = true := by
    refine pairsOK_infix (a := a) (b := b) ?_
    rw [← hdec]
    exact hz1nww
  have hynws : noWsStruct (trimJs (stripGo [] false (collapseGo false (c :: t)))) = true := by
    refine pairsOK_infix (a := a) (b := b) ?_
    rw [← hdec]
    exact hz1nws
  have hz0head : collapseGo false (c :: t) = c :: collapseGo false t := by
    simp [collapseGo, hc]
  obtain ⟨u, hz1head⟩ := stripGo_head_nonws (collapseGo false t) hc
  have hne : trimJs (stripGo [] false (collapseGo false (c :: t))) ≠ [] := by
    rw [hz0head, hz1head]
    exact trimJs_ne_nil u hc
  refine ⟨hne, ?_⟩
  rw [show collapseGo false (trimJs (stripGo [] false (collapseGo false (c :: t)))) =
    trimJs (stripGo [] false (collapseGo false (c :: t))) from (collapse_fix _ hyws hynww).1]
  rw [show stripGo [] false (trimJs (stripGo [] false (collapseGo false (c :: t)))) =
    trimJs (stripGo [] false (collapseGo false (c :: t))) from by
    simpa using stripGo_fix (trimJs (stripGo [] false (collapseGo false (c :: t)))) []
      (by simp) hynws]
  exact trimJs_idem _

/-- C4: `compressJSON` is idempotent — applying it to the state it just
produced returns exactly the same state and the same notification. -/
theorem C4_compress_idempotent (st : EditorState) :
    compressJSON (compressJSON st).1 = compressJSON st := by
  by_cases hempty : trimJs st.text = []
  · simp [compressJSON, hempty]
  · obtain ⟨c, t, htext⟩ : ∃ c t, trimJs st.text = c :: t := by
      rcases hx : trimJs st.text with _ | ⟨c, t⟩
      · exact absurd hx hempty
      · exact ⟨c, t, rfl⟩
    have hc : isJsWs c = false := trimJs_head_not_ws htext
    obtain ⟨hne, hfix⟩ := compress_pipeline_fix t hc
    rw [← htext] at hne hfix
    have h1 : compressJSON st =
        (applyValidate (trimJs (stripGo [] false (collapseGo false (trimJs st.text)))),
          ⟨"Whitespace removed successfully!", .success⟩) := by
      simp [compressJSON, hempty, collapseWs, stripAroundStruct]
    have h3 : compressJSON
        (applyValidate (trimJs (stripGo [] false (collapseGo false (trimJs st.text))))) =
        (applyValidate (trimJs (stripGo [] false (collapseGo false (trimJs st.text)))),
          ⟨"Whitespace removed successfully!", .success⟩) := by
      simp only [compressJSON, applyValidate, collapseWs, stripAroundStruct]
      rw [trimJs_idem, if_neg hne, hfix]
    rw [h1]
    exact h3

/-! ## The whitespace transform the spec describes -/

/-- Modelled from the spec: remove whitespace immediately adjacent to
any of the structural characters; a whitespace character goes exactly
when the original character before it (tracked by `prevStruct`) or
after it is structural. -/
def removeAdjGo (prevStruct : Bool) : List Char → List Char
  | [] => []
  | c :: rest =>
    if isJsWs c &&
        (prevStruct || (match rest.head? with | some d => isStructCh d | none => false)) then
      removeAdjGo (isStructCh c) rest
    else c :: removeAdjGo (isStructCh c) rest

/-- Modelled from the spec: the compress transform — collapse runs of
whitespace to a single space, then remove whitespace immediately
adjacent to any of the structural characters. The collapse half is
`collapseWs`; this is the removal half applied from the start of the
text. -/
def removeAdjWs (cs : List Char) : List Char :=
  removeAdjGo false cs

theorem strip_eq_removeAdj_aux : ∀ n : Nat, ∀ cs : List Char, cs.length ≤ n →
    noWsWs cs = true →
    (stripGo [] false cs = removeAdjGo false cs) ∧
    (stripGo [] true cs = removeAdjGo true cs) ∧
    (∀ w, isJsWs w = true → HeadNot isJsWs cs →
      stripGo [w] false cs = removeAdjGo false (w :: cs)) := by
  intro n
  induction n with
  | zero =>
    intro cs hlen hn
    have hnil : cs = [] := List.length_eq_zero.mp (Nat.le_zero.mp hlen)
    subst hnil
    refine ⟨rfl, rfl, fun w hw _ => ?_⟩
    rw [show stripGo [w] false [] = [w] from rfl]
    rw [show removeAdjGo false [w] = [w] from by simp [removeAdjGo, ws_not_struct hw]]
  | succ n ih =>
    intro cs hlen hn
    cases cs with
    | nil =>
      refine ⟨rfl, rfl, fun w hw _ => ?_⟩
      rw [show stripGo [w] false [] = [w] from rfl]
      rw [show removeAdjGo false [w] = [w] from by simp [removeAdjGo, ws_not_struct hw]]
    | cons c rest =>
      have hlr : rest.length ≤ n := by
        simp only [List.length_cons] at hlen
        omega
      have hnr : noWsWs rest = true := pairsOK_tail hn
      obtain ⟨ih1, ih2, ih3⟩ := ih rest hlr hnr
      by_cases hs : isStructCh c = true
      · have hcw : isJsWs c = false := isStructCh_not_ws hs
        refine ⟨?_, ?_, ?_⟩
        · rw [show stripGo [] false (c :: rest) = c :: stripGo [] true rest from by
            simp [stripGo, hs]]
          rw [show removeAdjGo false (c :: rest) = c :: removeAdjGo (isStructCh c) rest from by
            simp [removeAdjGo, hcw]]
          rw [hs, ih2]
        · rw [show stripGo [] true (c :: rest) = c :: stripGo [] true rest from by
            simp [stripGo, hs]]
          rw [show removeAdjGo true (c :: rest) = c :: removeAdjGo (isStructCh c) rest from by
            simp [removeAdjGo, hcw]]
          rw [hs, ih2]
        · intro w hw _
          rw [show stripGo [w] false (c :: rest) = c :: stripGo [] true rest from by
            simp [stripGo, hs]]
          rw [show removeAdjGo false (w :: c :: rest) = removeAdjGo false (c :: rest) from by
            simp [removeAdjGo, hw, hs, ws_not_struct hw]]
          rw [show removeAdjGo false (c :: rest) = c :: removeAdjGo (isStructCh c) rest from by
            simp [removeAdjGo, hcw]]
          rw [hs, ih2]
      · by_cases hw : isJsWs c = true
        · have hrh : HeadNot isJsWs rest := by
            cases rest with
            | nil => exact trivial
            | cons r rs =>
              simp only [noWsWs, pairsOK, Bool.and_eq_true] at hn
              have h1 := hn.1
              rw [hw] at h1
              simpa using h1
          refine ⟨?_, ?_, ?_⟩
          · rw [show stripGo [] false (c :: rest) = stripGo ([] ++ [c]) false rest from by
              simp [stripGo, hs, hw]]
            rw [show ([] : List Char) ++ [c] = [c] from rfl]
            exact ih3 c hw hrh
          · rw [show stripGo [] true (c :: rest) = stripGo [] true rest from by
              simp [stripGo, hs, hw]]
            rw [show removeAdjGo true (c :: rest) = removeAdjGo (isStructCh c) rest from by
              simp [removeAdjGo, hw]]
            rw [ws_not_struct hw]
            cases rest with
            | nil => rfl
            | cons r rs =>
              have hrw : isJsWs r = false := hrh
              rw [stripGo_true_eq_false hrh, ih1]
          · intro w hww hh
            rw [show HeadNot isJsWs (c :: rest) = (isJsWs c = false) from rfl] at hh
            rw [hw] at hh
            exact absurd hh (by simp)
        · have hcw : isJsWs c = false := eq_false_of_ne_true hw
          refine ⟨?_, ?_, ?_⟩
          · rw [show stripGo [] false (c :: rest) = [] ++ c :: stripGo [] false rest from by
              simp [stripGo, hs, hcw]]
            rw [show removeAdjGo false (c :: rest) = c :: removeAdjGo (isStructCh c) rest from by
              simp [removeAdjGo, hcw]]
            rw [eq_false_of_ne_true hs, ih1]
            rfl
          · rw [show stripGo [] true (c :: rest) = [] ++ c :: stripGo [] false rest from by
              simp [stripGo, hs, hcw]]
            rw [show removeAdjGo true (c :: rest) = c :: removeAdjGo (isStructCh c) rest from by
              simp [removeAdjGo, hcw]]
            rw [eq_false_of_ne_true hs, ih1]
            rfl
          · intro w hww _
            rw [show stripGo [w] false (c :: rest) = [w] ++ c :: stripGo [] false rest from by
              simp [stripGo, hs, hcw]]
            rw [show removeAdjGo false (w :: c :: rest) =
              w :: removeAdjGo false (c :: rest) from by
              simp [removeAdjGo, hww, eq_false_of_ne_true hs, ws_not_struct hww]]
            rw [show removeAdjGo false (c :: rest) = c :: removeAdjGo (isStructCh c) rest from by
              simp [removeAdjGo, hcw]]
            rw [eq_false_of_ne_true hs, ih1]
            rfl

/-- On a text with no two adjacent whitespace characters — the image of
the collapse pass — the strip regex agrees with the spec's
adjacent-whitespace removal. -/
theorem strip_eq_removeAdj {cs : List Char} (h : noWsWs cs = true) :
    stripAroundStruct cs = removeAdjWs cs :=
  (strip_eq_removeAdj_aux cs.length cs (Nat.le_refl _) h).1

/-- C5 counterexample: `compressJSON` first trims the input, so on the
editor text `" a"` the code produces `"a"` while the spec's pure
collapse-then-remove-adjacent transform keeps the leading space. -/
theorem C5_counterexample :
    (compressJSON ⟨' ' :: ['a'], false, .null⟩).1.text ≠
      removeAdjWs (collapseWs (' ' :: ['a'])) := by
  have h1 : trimJs (' ' :: ['a']) = ['a'] := by decide
  have h2 : (compressJSON ⟨' ' :: ['a'], false, .null⟩).1.text =
      trimJs (stripAroundStruct (collapseWs (trimJs (' ' :: ['a'])))) := by
    simp [compressJSON, h1, applyValidate]
  rw [h2, h1]
  decide

/-- C5 amended: for every editor state whose trimmed text is non-empty,
`compressJSON` equals the spec's textual transform — collapse whitespace
runs to one space, then remove whitespace adjacent to the structural
characters — conjugated with trimming: the input is trimmed first and
the result trimmed last; the transform itself never parses the text. -/
theorem C5_compress_spec_trimmed (st : EditorState) (h : trimJs st.text ≠ []) :
    (compressJSON st).1.text =
      trimJs (removeAdjWs (collapseWs (trimJs st.text))) := by
  have h1 : (compressJSON st).1.text =
      trimJs (stripAroundStruct (collapseWs (trimJs st.text))) := by
    simp [compressJSON, h, applyValidate]
  rw [h1, strip_eq_removeAdj (show noWsWs (collapseWs (trimJs st.text)) = true from by
    rw [collapseWs]
    exact (collapse_spaces (trimJs st.text) false).2)]

theorem C5_compress_spec_witness :
    (compressJSON ⟨['1'], false, .null⟩).1.text =
      trimJs (removeAdjWs (collapseWs (trimJs ['1']))) :=
  C5_compress_spec_trimmed ⟨['1'], false, .null⟩ (by decide)

end JsonTool